import Mathlib

/-!
Verification of the task-scheduling and orchestration core of the
Legal_Assistant_Contract_Analysis repository.

The Python sources are shallowly embedded:
* `src/orchestration/task_manager.py` — `Task`, `TaskManager` (a CPython
  `heapq`-based priority queue with dependency gating),
* `src/agents/editor.py` — conflict detection over suggested edits,
* `src/agents/diligent_reviewer.py` — relevance filtering and pair
  deduplication,
* `src/orchestration/project_memory.py` — the persisted project record,
* `src/orchestration/adaptive_controller.py` — the control loop.

Machine floats (`datetime.utcnow().timestamp()`) enter only through `<`/`=`
comparisons, so the clock values are modelled as integers supplied by the
caller (explicit-time passing); wall-clock reads may repeat, which the model
reflects by placing no constraint on consecutive clock inputs.  Python dicts
are modelled as association lists with overwrite-on-insert semantics.
-/

set_option autoImplicit false

namespace LegalAssistant

/-! ### List indexing helpers

`nth l i` models the Python indexing `l[i]` (all call sites below are
in-bounds, mirroring the source).  The lemmas are the small facts about
`nth`/`List.set` that the heap proofs use. -/

def nth {α : Type} [Inhabited α] (l : List α) (i : Nat) : α :=
  (l.get? i).getD default

theorem nth_nil {α : Type} [Inhabited α] (i : Nat) : nth ([] : List α) i = default := by
  cases i <;> rfl

theorem nth_cons_zero {α : Type} [Inhabited α] (a : α) (l : List α) :
    nth (a :: l) 0 = a := rfl

theorem nth_cons_succ {α : Type} [Inhabited α] (a : α) (l : List α) (i : Nat) :
    nth (a :: l) (i + 1) = nth l i := rfl

theorem nth_set_self {α : Type} [Inhabited α] :
    ∀ (l : List α) (i : Nat) (a : α), i < l.length → nth (l.set i a) i = a := by
  intro l
  induction l with
  | nil => intro i a h; simp at h
  | cons x xs ih =>
    intro i a h
    cases i with
    | zero => rfl
    | succ j =>
      simp only [List.set]
      rw [nth_cons_succ]
      exact ih j a (by simpa using h)

theorem nth_set_ne {α : Type} [Inhabited α] :
    ∀ (l : List α) (i j : Nat) (a : α), i ≠ j → nth (l.set i a) j = nth l j := by
  intro l
  induction l with
  | nil => intro i j a _; cases i <;> rfl
  | cons x xs ih =>
    intro i j a hij
    cases i with
    | zero =>
      cases j with
      | zero => exact absurd rfl hij
      | succ k => rfl
    | succ i' =>
      cases j with
      | zero => rfl
      | succ k =>
        simp only [List.set]
        rw [nth_cons_succ, nth_cons_succ]
        exact ih i' k a (fun h => hij (by rw [h]))

theorem nth_append_left {α : Type} [Inhabited α] :
    ∀ (l l₂ : List α) (j : Nat), j < l.length → nth (l ++ l₂) j = nth l j := by
  intro l
  induction l with
  | nil => intro l₂ j h; simp at h
  | cons x xs ih =>
    intro l₂ j h
    cases j with
    | zero => rfl
    | succ k =>
      simp only [List.cons_append]
      rw [nth_cons_succ, nth_cons_succ]
      exact ih l₂ k (by simpa using h)

theorem nth_append_own {α : Type} [Inhabited α] :
    ∀ (l : List α) (x : α), nth (l ++ [x]) l.length = x := by
  intro l
  induction l with
  | nil => intro x; rfl
  | cons y ys ih =>
    intro x
    simp only [List.cons_append, List.length_cons]
    rw [nth_cons_succ]
    exact ih x

theorem set_append_own {α : Type} :
    ∀ (l : List α) (x y : α), (l ++ [x]).set l.length y = l ++ [y] := by
  intro l
  induction l with
  | nil => intro x y; rfl
  | cons z zs ih =>
    intro x y
    show z :: ((zs ++ [x]).set zs.length y) = z :: (zs ++ [y])
    rw [ih]

theorem nth_mem {α : Type} [Inhabited α] :
    ∀ (l : List α) (k : Nat), k < l.length → nth l k ∈ l := by
  intro l
  induction l with
  | nil => intro k h; simp at h
  | cons x xs ih =>
    intro k h
    cases k with
    | zero => exact List.mem_cons_self x xs
    | succ j =>
      rw [nth_cons_succ]
      exact List.mem_cons_of_mem x (ih j (by simpa using h))

theorem mem_nth {α : Type} [Inhabited α] :
    ∀ (l : List α) (a : α), a ∈ l → ∃ k, k < l.length ∧ nth l k = a := by
  intro l
  induction l with
  | nil => intro a h; simp at h
  | cons x xs ih =>
    intro a h
    rcases List.mem_cons.mp h with h | h
    · exact ⟨0, by simp, h.symm⟩
    · obtain ⟨k, hk, hnth⟩ := ih a h
      exact ⟨k + 1, by simpa using hk, hnth⟩

theorem nth_dropLast {α : Type} [Inhabited α] :
    ∀ (l : List α) (j : Nat), j < l.length - 1 → nth l.dropLast j = nth l j := by
  intro l
  induction l with
  | nil => intro j h; simp at h
  | cons x xs ih =>
    intro j h
    cases xs with
    | nil => simp at h
    | cons y ys =>
      cases j with
      | zero => rfl
      | succ k =>
        simp only [List.dropLast]
        rw [nth_cons_succ, nth_cons_succ]
        exact ih k (by simp at h ⊢; omega)

theorem dropLast_append_own {α : Type} [Inhabited α] :
    ∀ (l : List α), l ≠ [] → l.dropLast ++ [nth l (l.length - 1)] = l := by
  intro l
  induction l with
  | nil => intro h; exact absurd rfl h
  | cons x xs ih =>
    intro _
    cases xs with
    | nil => rfl
    | cons y ys =>
      simp only [List.dropLast, List.length_cons, Nat.add_sub_cancel, List.cons_append]
      have := ih (by simp)
      simp only [List.length_cons] at this
      rw [nth_cons_succ]
      simp only [Nat.add_sub_cancel] at this
      rw [this]

theorem coe_set_add_nth {α : Type} [Inhabited α] :
    ∀ (l : List α) (i : Nat) (a : α), i < l.length →
      (↑(l.set i a) : Multiset α) + {nth l i} = ↑l + {a} := by
  intro l
  induction l with
  | nil => intro i a h; simp at h
  | cons x xs ih =>
    intro i a h
    cases i with
    | zero =>
      show (↑(a :: xs) : Multiset α) + {x} = ↑(x :: xs) + {a}
      simp only [← Multiset.cons_coe]
      rw [Multiset.cons_add, Multiset.cons_add,
        add_comm (↑xs) ({x} : Multiset α), Multiset.singleton_add,
        add_comm (↑xs) ({a} : Multiset α), Multiset.singleton_add]
      exact Multiset.cons_swap a x ↑xs
    | succ j =>
      show (↑((x :: xs.set j a)) : Multiset α) + {nth xs j} = ↑(x :: xs) + {a}
      simp only [← Multiset.cons_coe]
      rw [Multiset.cons_add, Multiset.cons_add]
      rw [ih j a (by simpa using h)]

/-! ### CPython `heapq`

Faithful model of `heapq.heappush` / `heapq.heappop` (CPython `Lib/heapq.py`),
which `TaskManager` uses.  Comparison is the Boolean `<` the heap calls.
The inner loops `_siftdown` (bubble towards the root while `newitem < parent`)
and `_siftup` (move the smaller child up until a leaf, then `_siftdown`) are
written with an explicit structural recursion counter; `_siftdown` decreases
`pos` on every iteration and `_siftup` increases `pos` below `endpos`, so
the counters chosen by the wrappers (`pos`, resp. `heap.length`) are never
exhausted and the functions compute exactly the Python loops. -/

def parentIdx (j : Nat) : Nat := (j - 1) / 2

theorem parentIdx_lt {j : Nat} (h : 0 < j) : parentIdx j < j := by
  simp only [parentIdx]; omega

theorem pos_of_parentIdx_pos {j : Nat} (h : 0 < parentIdx j) : 0 < j := by
  simp only [parentIdx] at h; omega

theorem parentIdx_child_left (p : Nat) : parentIdx (2 * p + 1) = p := by
  simp only [parentIdx]; omega

theorem parentIdx_child_right (p : Nat) : parentIdx (2 * p + 2) = p := by
  simp only [parentIdx]; omega

theorem child_cases_of_parentIdx {p j : Nat} (h : parentIdx j = p) (hj : 0 < j) :
    j = 2 * p + 1 ∨ j = 2 * p + 2 := by
  simp only [parentIdx] at h; omega

theorem child_lower_bound {p j : Nat} (h : parentIdx j = p) (hj : 0 < j) :
    2 * p + 1 ≤ j := by
  simp only [parentIdx] at h; omega

def siftdownGo {α : Type} [Inhabited α] (lt : α → α → Bool) (startpos : Nat)
    (newitem : α) : Nat → Nat → List α → List α
  | 0, pos, heap => heap.set pos newitem
  | fuel + 1, pos, heap =>
    if startpos < pos then
      let parentpos := parentIdx pos
      let parent := nth heap parentpos
      if lt newitem parent then
        siftdownGo lt startpos newitem fuel parentpos (heap.set pos parent)
      else
        heap.set pos newitem
    else
      heap.set pos newitem

/-- Model of `heapq._siftdown(heap, startpos, pos)` (the counter `pos`
dominates the number of loop iterations). -/
def siftdown {α : Type} [Inhabited α] (lt : α → α → Bool) (heap : List α)
    (startpos pos : Nat) : List α :=
  siftdownGo lt startpos (nth heap pos) pos pos heap

def siftupGo {α : Type} [Inhabited α] (lt : α → α → Bool) (endpos startpos : Nat)
    (newitem : α) : Nat → Nat → List α → List α
  | 0, pos, heap => siftdownGo lt startpos newitem pos pos (heap.set pos newitem)
  | fuel + 1, pos, heap =>
    if 2 * pos + 1 < endpos then
      let childpos := 2 * pos + 1
      let rightpos := childpos + 1
      let childpos :=
        if rightpos < endpos && !(lt (nth heap childpos) (nth heap rightpos)) then
          rightpos
        else childpos
      siftupGo lt endpos startpos newitem fuel childpos
        (heap.set pos (nth heap childpos))
    else
      siftdownGo lt startpos newitem pos pos (heap.set pos newitem)

/-- Model of `heapq._siftup(heap, pos)` (`endpos - pos` grows by at least one
per iteration so `heap.length` iterations always suffice). -/
def siftup {α : Type} [Inhabited α] (lt : α → α → Bool) (heap : List α)
    (pos : Nat) : List α :=
  siftupGo lt heap.length pos (nth heap pos) heap.length pos heap

/-- Model of `heapq.heappush(heap, item)`: append, then `_siftdown(heap, 0, len-1)`. -/
def heappush {α : Type} [Inhabited α] (lt : α → α → Bool) (heap : List α)
    (item : α) : List α :=
  siftdown lt (heap ++ [item]) 0 heap.length

/-- Model of `heapq.heappop(heap)`: pop the last element; if the heap is still
non-empty, place it at the root and `_siftup(heap, 0)`.  The Python function
raises `IndexError` on an empty list; every call site below guards with a
non-emptiness check first, so the empty case is never exercised. -/
def heappop {α : Type} [Inhabited α] (lt : α → α → Bool) (heap : List α) :
    α × List α :=
  let lastelt := nth heap (heap.length - 1)
  let rest := heap.dropLast
  if rest.length > 0 then
    (nth rest 0, siftup lt (rest.set 0 lastelt) 0)
  else
    (lastelt, rest)

/-- The binary-heap invariant maintained by `heapq`: no element is `<` its
parent (indices `2*i+1`, `2*i+2` are the children of `i`). -/
def heapInvP {α : Type} [Inhabited α] (lt : α → α → Bool) (l : List α) : Prop :=
  ∀ j, j < l.length → 0 < j → lt (nth l j) (nth l (parentIdx j)) = false

instance heapInvP.instDecidable {α : Type} [Inhabited α] (lt : α → α → Bool)
    (l : List α) : Decidable (heapInvP lt l) := by
  unfold heapInvP
  exact Nat.decidableBallLT _ _

/-! ### Heap correctness

`lt` is only assumed to be a strict weak order — which the tuple comparison
`(priority, created_at) < (priority, created_at)` of the Python dataclass is —
via the four hypotheses `hirr`, `htr`, `hneg`, `hasym` below.  The proofs
establish that `heappush`/`heappop` preserve the heap invariant and the
multiset of elements, and that `heappop` returns a minimal element. -/

section HeapProofs

variable {α : Type} [Inhabited α] (lt : α → α → Bool)

/-- The final write `heap[pos] = newitem` of `_siftdown` yields a heap when
all other edges hold, the children of `pos` are not below `newitem`, and
`newitem` is not below the parent of `pos`. -/
theorem heapInv_set_final (newitem : α) (pos : Nat) (l : List α)
    (hlen : pos < l.length)
    (hA : ∀ j, j < l.length → 0 < j → j ≠ pos → parentIdx j ≠ pos →
      lt (nth l j) (nth l (parentIdx j)) = false)
    (hB : ∀ j, j < l.length → 0 < j → parentIdx j = pos →
      lt (nth l j) newitem = false)
    (hpar : 0 < pos → lt newitem (nth l (parentIdx pos)) = false) :
    heapInvP lt (l.set pos newitem) := by
  intro j hj hjpos
  rw [List.length_set] at hj
  by_cases hjp : j = pos
  · subst hjp
    have hpp : parentIdx j ≠ j := by simp only [parentIdx]; omega
    rw [nth_set_self l j newitem hj,
      nth_set_ne l j (parentIdx j) newitem (fun h => hpp h.symm)]
    exact hpar hjpos
  · rw [nth_set_ne l pos j newitem (fun h => hjp h.symm)]
    by_cases hpj : parentIdx j = pos
    · rw [hpj, nth_set_self l pos newitem hlen]
      exact hB j hj hjpos hpj
    · rw [nth_set_ne l pos (parentIdx j) newitem (fun h => hpj h.symm)]
      exact hA j hj hjpos hjp hpj

theorem siftdownGo_heapInv
    (htr : ∀ a b c, lt a b = true → lt b c = true → lt a c = true)
    (hneg : ∀ a b c, lt a b = false → lt b c = false → lt a c = false)
    (hasym : ∀ a b, lt a b = true → lt b a = false)
    (newitem : α) :
    ∀ (fuel pos : Nat) (l : List α), pos ≤ fuel → pos < l.length →
      (∀ j, j < l.length → 0 < j → j ≠ pos → parentIdx j ≠ pos →
        lt (nth l j) (nth l (parentIdx j)) = false) →
      (∀ j, j < l.length → 0 < j → parentIdx j = pos →
        lt (nth l j) newitem = false) →
      (0 < pos → ∀ j, j < l.length → parentIdx j = pos →
        lt (nth l j) (nth l (parentIdx pos)) = false) →
      heapInvP lt (siftdownGo lt 0 newitem fuel pos l) := by
  intro fuel
  induction fuel with
  | zero =>
    intro pos l hfuel hlen hA hB _
    have hpos0 : pos = 0 := by omega
    subst hpos0
    exact heapInv_set_final lt newitem 0 l hlen hA hB (fun h => absurd h (by omega))
  | succ fuel ih =>
    intro pos l hfuel hlen hA hB hC
    simp only [siftdownGo]
    by_cases hpos : 0 < pos
    · rw [if_pos hpos]
      have hppos : parentIdx pos < pos := by simp only [parentIdx]; omega
      by_cases hlt : lt newitem (nth l (parentIdx pos)) = true
      · rw [if_pos hlt]
        apply ih (parentIdx pos) (l.set pos (nth l (parentIdx pos))) (by omega)
          (by rw [List.length_set]; omega)
        · -- edges not touching the new hole still hold
          intro j hj hj0 hjne hjpar
          rw [List.length_set] at hj
          by_cases hjp : j = pos
          · subst hjp
            exact absurd rfl hjpar
          · rw [nth_set_ne l pos j _ (fun h => hjp h.symm)]
            by_cases hpjp : parentIdx j = pos
            · rw [hpjp, nth_set_self l pos _ hlen]
              exact hC hpos j hj hpjp
            · rw [nth_set_ne l pos (parentIdx j) _ (fun h => hpjp h.symm)]
              exact hA j hj hj0 hjp hpjp
        · -- children of the new hole are not below newitem
          intro j hj hj0 hjpar
          rw [List.length_set] at hj
          by_cases hjp : j = pos
          · subst hjp
            rw [nth_set_self l j _ hlen]
            exact hasym _ _ hlt
          · rw [nth_set_ne l pos j _ (fun h => hjp h.symm)]
            have h1 : lt (nth l j) (nth l (parentIdx pos)) = false := by
              have := hA j hj hj0 hjp (by omega)
              rwa [hjpar] at this
            cases hxn : lt (nth l j) newitem with
            | false => rfl
            | true =>
              have h2 := htr _ _ _ hxn hlt
              rw [h1] at h2
              exact absurd h2 (by simp)
        · -- children of the new hole vs its own parent
          intro hpp0 j hj hjpar
          rw [List.length_set] at hj
          have hgp : parentIdx (parentIdx pos) < parentIdx pos := parentIdx_lt hpp0
          have hgp_ne : parentIdx (parentIdx pos) ≠ pos := by omega
          rw [nth_set_ne l pos (parentIdx (parentIdx pos)) _ (fun h => hgp_ne h.symm)]
          have hparent_gp :
              lt (nth l (parentIdx pos)) (nth l (parentIdx (parentIdx pos))) = false :=
            hA (parentIdx pos) (by omega) hpp0 (by omega) hgp_ne
          by_cases hjp : j = pos
          · subst hjp
            rw [nth_set_self l j _ hlen]
            exact hparent_gp
          · rw [nth_set_ne l pos j _ (fun h => hjp h.symm)]
            have hj0 : 0 < j := pos_of_parentIdx_pos (by rw [hjpar]; exact hpp0)
            have h1 : lt (nth l j) (nth l (parentIdx pos)) = false := by
              have := hA j hj hj0 hjp (by omega)
              rwa [hjpar] at this
            exact hneg _ _ _ h1 hparent_gp
      · rw [if_neg hlt]
        apply heapInv_set_final lt newitem pos l hlen hA hB
        intro _
        cases h : lt newitem (nth l (parentIdx pos)) with
        | false => rfl
        | true => exact absurd h hlt
    · rw [if_neg hpos]
      have hpos0 : pos = 0 := by omega
      subst hpos0
      exact heapInv_set_final lt newitem 0 l hlen hA hB (fun h => absurd h (by omega))

theorem siftdownGo_perm (newitem : α) :
    ∀ (fuel pos : Nat) (l : List α), pos ≤ fuel → pos < l.length →
      (↑(siftdownGo lt 0 newitem fuel pos l) : Multiset α) = ↑(l.set pos newitem) := by
  intro fuel
  induction fuel with
  | zero => intro pos l _ _; rfl
  | succ fuel ih =>
    intro pos l hfuel hlen
    simp only [siftdownGo]
    by_cases hpos : 0 < pos
    · rw [if_pos hpos]
      have hppos : parentIdx pos < pos := by simp only [parentIdx]; omega
      by_cases hlt : lt newitem (nth l (parentIdx pos)) = true
      · rw [if_pos hlt]
        rw [ih (parentIdx pos) (l.set pos (nth l (parentIdx pos))) (by omega)
          (by rw [List.length_set]; omega)]
        have h1 := coe_set_add_nth (l.set pos (nth l (parentIdx pos)))
          (parentIdx pos) newitem (by rw [List.length_set]; omega)
        rw [nth_set_ne l pos (parentIdx pos) _ (by omega)] at h1
        have h2 := coe_set_add_nth l pos (nth l (parentIdx pos)) hlen
        have h3 := coe_set_add_nth l pos newitem hlen
        have key :
            (↑((l.set pos (nth l (parentIdx pos))).set (parentIdx pos) newitem) : Multiset α)
              + {nth l (parentIdx pos)} + {nth l pos}
            = ↑(l.set pos newitem) + {nth l (parentIdx pos)} + {nth l pos} := by
          rw [h1, add_right_comm, h2]
          conv_rhs => rw [add_right_comm]
          rw [h3, add_right_comm]
        exact add_right_cancel (add_right_cancel key)
      · rw [if_neg hlt]
    · rw [if_neg hpos]

/-- Exchanging `heap[pos] := heap[c]` and then `heap[c] := newitem` has the
same multiset effect as `heap[pos] := newitem`. -/
theorem set_set_exchange_perm (l : List α) (pos c : Nat) (newitem : α)
    (hlen : pos < l.length) (hclen : c < l.length) (hne : pos ≠ c) :
    (↑((l.set pos (nth l c)).set c newitem) : Multiset α) = ↑(l.set pos newitem) := by
  have h1 := coe_set_add_nth (l.set pos (nth l c)) c newitem
    (by rw [List.length_set]; exact hclen)
  rw [nth_set_ne l pos c _ hne] at h1
  have h2 := coe_set_add_nth l pos (nth l c) hlen
  have h3 := coe_set_add_nth l pos newitem hlen
  have key : (↑((l.set pos (nth l c)).set c newitem) : Multiset α)
      + {nth l c} + {nth l pos}
      = ↑(l.set pos newitem) + {nth l c} + {nth l pos} := by
    rw [h1, add_right_comm, h2]
    conv_rhs => rw [add_right_comm]
    rw [h3, add_right_comm]
  exact add_right_cancel (add_right_cancel key)

/-- After the `_siftup` hole move `heap[pos] := heap[c]` to the chosen child
`c`, both hypothesis bundles hold again at `c`. -/
theorem siftup_child_invs
    (pos c : Nat) (l : List α)
    (hlen : pos < l.length) (hclen : c < l.length) (hc0 : 0 < c)
    (hcpar : parentIdx c = pos)
    (hcmin : ∀ o, o < l.length → parentIdx o = pos → o ≠ pos → o ≠ c →
      lt (nth l o) (nth l c) = false)
    (hA : ∀ j, j < l.length → 0 < j → j ≠ pos → parentIdx j ≠ pos →
      lt (nth l j) (nth l (parentIdx j)) = false)
    (hC : 0 < pos → ∀ j, j < l.length → parentIdx j = pos →
      lt (nth l j) (nth l (parentIdx pos)) = false) :
    (∀ j, j < (l.set pos (nth l c)).length → 0 < j → j ≠ c → parentIdx j ≠ c →
      lt (nth (l.set pos (nth l c)) j) (nth (l.set pos (nth l c)) (parentIdx j)) = false)
    ∧ (0 < c → ∀ j, j < (l.set pos (nth l c)).length → parentIdx j = c →
      lt (nth (l.set pos (nth l c)) j) (nth (l.set pos (nth l c)) (parentIdx c)) = false) := by
  have hposc : pos < c := by
    have := parentIdx_lt hc0
    omega
  constructor
  · intro j hj hj0 hjc hjparc
    rw [List.length_set] at hj
    by_cases hjp : j = pos
    · subst hjp
      have hpp : parentIdx j < j := parentIdx_lt hj0
      rw [nth_set_self l j _ hlen,
        nth_set_ne l j (parentIdx j) _ (by omega)]
      exact hC hj0 c hclen hcpar
    · rw [nth_set_ne l pos j _ (fun h => hjp h.symm)]
      by_cases hpjp : parentIdx j = pos
      · rw [hpjp, nth_set_self l pos _ hlen]
        exact hcmin j hj hpjp hjp hjc
      · rw [nth_set_ne l pos (parentIdx j) _ (fun h => hpjp h.symm)]
        exact hA j hj hj0 hjp hpjp
  · intro _ j hj hjpar
    rw [List.length_set] at hj
    have hj0 : 0 < j := pos_of_parentIdx_pos (by rw [hjpar]; exact hc0)
    have hjlow : 2 * c + 1 ≤ j := child_lower_bound hjpar hj0
    rw [hcpar, nth_set_self l pos _ hlen,
      nth_set_ne l pos j _ (by omega)]
    have := hA j hj hj0 (by omega) (by omega)
    rwa [hjpar] at this

theorem siftupGo_heapInv
    (htr : ∀ a b c, lt a b = true → lt b c = true → lt a c = true)
    (hneg : ∀ a b c, lt a b = false → lt b c = false → lt a c = false)
    (hasym : ∀ a b, lt a b = true → lt b a = false)
    (newitem : α) :
    ∀ (fuel pos : Nat) (l : List α), l.length ≤ fuel + pos → pos < l.length →
      (∀ j, j < l.length → 0 < j → j ≠ pos → parentIdx j ≠ pos →
        lt (nth l j) (nth l (parentIdx j)) = false) →
      (0 < pos → ∀ j, j < l.length → parentIdx j = pos →
        lt (nth l j) (nth l (parentIdx pos)) = false) →
      heapInvP lt (siftupGo lt l.length 0 newitem fuel pos l) := by
  intro fuel
  induction fuel with
  | zero =>
    intro pos l hfuel hlen _ _
    exact absurd hlen (by omega)
  | succ fuel ih =>
    intro pos l hfuel hlen hA hC
    simp only [siftupGo]
    by_cases hguard : 2 * pos + 1 < l.length
    · rw [if_pos hguard]
      by_cases hcond :
          (decide (2 * pos + 1 + 1 < l.length)
            && !(lt (nth l (2 * pos + 1)) (nth l (2 * pos + 1 + 1)))) = true
      · rw [if_pos hcond]
        have hc2 : 2 * pos + 1 + 1 = 2 * pos + 2 := by omega
        rw [hc2] at hcond ⊢
        rw [Bool.and_eq_true] at hcond
        have hrlen : 2 * pos + 2 < l.length := of_decide_eq_true hcond.1
        have hLR : lt (nth l (2 * pos + 1)) (nth l (2 * pos + 2)) = false := by
          cases hb : lt (nth l (2 * pos + 1)) (nth l (2 * pos + 2)) with
          | false => rfl
          | true =>
            have h2 := hcond.2
            rw [hb] at h2
            exact absurd h2 (by simp)
        have hcmin : ∀ o, o < l.length → parentIdx o = pos → o ≠ pos → o ≠ 2 * pos + 2 →
            lt (nth l o) (nth l (2 * pos + 2)) = false := by
          intro o ho hopar hop hone
          have h0 : 0 < o := by
            rcases Nat.eq_zero_or_pos o with h | h
            · subst h
              simp only [parentIdx] at hopar
              omega
            · exact h
          rcases child_cases_of_parentIdx hopar h0 with h | h
          · rw [h]; exact hLR
          · exact absurd h hone
        obtain ⟨hA2, hC2⟩ := siftup_child_invs lt pos (2 * pos + 2) l hlen
          hrlen (by omega) (parentIdx_child_right pos) hcmin hA hC
        have hlenset : (l.set pos (nth l (2 * pos + 2))).length = l.length :=
          List.length_set l pos _
        rw [← hlenset]
        exact ih (2 * pos + 2) (l.set pos (nth l (2 * pos + 2)))
          (by rw [hlenset]; omega) (by rw [hlenset]; omega) hA2 hC2
      · rw [if_neg hcond]
        have hc2 : 2 * pos + 1 + 1 = 2 * pos + 2 := by omega
        rw [hc2] at hcond
        have hcmin : ∀ o, o < l.length → parentIdx o = pos → o ≠ pos → o ≠ 2 * pos + 1 →
            lt (nth l o) (nth l (2 * pos + 1)) = false := by
          intro o ho hopar hop hone
          have h0 : 0 < o := by
            rcases Nat.eq_zero_or_pos o with h | h
            · subst h
              simp only [parentIdx] at hopar
              omega
            · exact h
          rcases child_cases_of_parentIdx hopar h0 with h | h
          · exact absurd h hone
          · subst h
            have hb : lt (nth l (2 * pos + 1)) (nth l (2 * pos + 2)) = true := by
              cases hb : lt (nth l (2 * pos + 1)) (nth l (2 * pos + 2)) with
              | true => rfl
              | false =>
                refine absurd ?_ hcond
                rw [Bool.and_eq_true, hb]
                exact ⟨decide_eq_true ho, by simp⟩
            exact hasym _ _ hb
        obtain ⟨hA2, hC2⟩ := siftup_child_invs lt pos (2 * pos + 1) l hlen
          hguard (by omega) (parentIdx_child_left pos) hcmin hA hC
        have hlenset : (l.set pos (nth l (2 * pos + 1))).length = l.length :=
          List.length_set l pos _
        rw [← hlenset]
        exact ih (2 * pos + 1) (l.set pos (nth l (2 * pos + 1)))
          (by rw [hlenset]; omega) (by rw [hlenset]; omega) hA2 hC2
    · rw [if_neg hguard]
      apply siftdownGo_heapInv lt htr hneg hasym newitem pos pos (l.set pos newitem)
        le_rfl (by rw [List.length_set]; exact hlen)
      · intro j hj hj0 hjp hpjp
        rw [List.length_set] at hj
        rw [nth_set_ne l pos j _ (fun h => hjp h.symm),
          nth_set_ne l pos (parentIdx j) _ (fun h => hpjp h.symm)]
        exact hA j hj hj0 hjp hpjp
      · intro j hj hj0 hpj
        rw [List.length_set] at hj
        have := child_lower_bound hpj hj0
        omega
      · intro hpos j hj hpj
        rw [List.length_set] at hj
        have hj0 : 0 < j := pos_of_parentIdx_pos (by rw [hpj]; exact hpos)
        have := child_lower_bound hpj hj0
        omega

theorem siftupGo_perm (newitem : α) :
    ∀ (fuel pos : Nat) (l : List α), l.length ≤ fuel + pos → pos < l.length →
      (↑(siftupGo lt l.length 0 newitem fuel pos l) : Multiset α) = ↑(l.set pos newitem) := by
  intro fuel
  induction fuel with
  | zero =>
    intro pos l hfuel hlen
    exact absurd hlen (by omega)
  | succ fuel ih =>
    intro pos l hfuel hlen
    simp only [siftupGo]
    by_cases hguard : 2 * pos + 1 < l.length
    · rw [if_pos hguard]
      by_cases hcond :
          (decide (2 * pos + 1 + 1 < l.length)
            && !(lt (nth l (2 * pos + 1)) (nth l (2 * pos + 1 + 1)))) = true
      · rw [if_pos hcond]
        have hclen : 2 * pos + 1 + 1 < l.length := by
          simp only [Bool.and_eq_true, decide_eq_true_eq] at hcond
          exact hcond.1
        have hlenset : (l.set pos (nth l (2 * pos + 1 + 1))).length = l.length :=
          List.length_set l pos _
        rw [← hlenset,
          ih (2 * pos + 1 + 1) (l.set pos (nth l (2 * pos + 1 + 1)))
            (by rw [hlenset]; omega) (by rw [hlenset]; omega)]
        exact set_set_exchange_perm l pos (2 * pos + 1 + 1) newitem hlen hclen (by omega)
      · rw [if_neg hcond]
        have hlenset : (l.set pos (nth l (2 * pos + 1))).length = l.length :=
          List.length_set l pos _
        rw [← hlenset,
          ih (2 * pos + 1) (l.set pos (nth l (2 * pos + 1)))
            (by rw [hlenset]; omega) (by rw [hlenset]; omega)]
        exact set_set_exchange_perm l pos (2 * pos + 1) newitem hlen hguard (by omega)
    · rw [if_neg hguard]
      rw [siftdownGo_perm lt newitem pos pos (l.set pos newitem) le_rfl
        (by rw [List.length_set]; exact hlen)]
      rw [List.set_set]

theorem coe_append {β : Type} (l l₂ : List β) :
    (↑(l ++ l₂) : Multiset β) = ↑l + ↑l₂ := by
  induction l with
  | nil => simp
  | cons a as ih =>
    show ((a :: (as ++ l₂) : List β) : Multiset β) = ↑(a :: as) + ↑l₂
    rw [← Multiset.cons_coe, ← Multiset.cons_coe, Multiset.cons_add, ih]

/-- In a heap, no element is below the root (transitive closure of the
parent relation). -/
theorem heapInv_root_le
    (hirr : ∀ a, lt a a = false)
    (hneg : ∀ a b c, lt a b = false → lt b c = false → lt a c = false)
    (l : List α) (hinv : heapInvP lt l) :
    ∀ k, k < l.length → lt (nth l k) (nth l 0) = false := by
  intro k
  induction k using Nat.strong_induction_on with
  | _ k ih =>
    intro hk
    rcases Nat.eq_zero_or_pos k with h | h
    · subst h
      exact hirr _
    · have hp := hinv k hk h
      have hplt : parentIdx k < k := parentIdx_lt h
      exact hneg _ _ _ hp (ih (parentIdx k) hplt (by omega))

theorem heappush_heapInv
    (htr : ∀ a b c, lt a b = true → lt b c = true → lt a c = true)
    (hneg : ∀ a b c, lt a b = false → lt b c = false → lt a c = false)
    (hasym : ∀ a b, lt a b = true → lt b a = false)
    (l : List α) (x : α) (hinv : heapInvP lt l) :
    heapInvP lt (heappush lt l x) := by
  unfold heappush siftdown
  rw [nth_append_own]
  apply siftdownGo_heapInv lt htr hneg hasym x l.length l.length (l ++ [x])
    le_rfl (by simp)
  · intro j hj hj0 hjp hpjp
    rw [List.length_append, List.length_singleton] at hj
    have hjlt : j < l.length := by omega
    have hplt : parentIdx j < l.length := by
      have := parentIdx_lt hj0
      omega
    rw [nth_append_left l [x] j hjlt, nth_append_left l [x] _ hplt]
    exact hinv j hjlt hj0
  · intro j hj hj0 hpj
    have := child_lower_bound hpj hj0
    rw [List.length_append, List.length_singleton] at hj
    omega
  · intro hpos j hj hpj
    have hj0 : 0 < j := pos_of_parentIdx_pos (by rw [hpj]; exact hpos)
    have := child_lower_bound hpj hj0
    rw [List.length_append, List.length_singleton] at hj
    omega

theorem heappush_perm (l : List α) (x : α) :
    (↑(heappush lt l x) : Multiset α) = x ::ₘ ↑l := by
  unfold heappush siftdown
  rw [nth_append_own]
  rw [siftdownGo_perm lt x l.length l.length (l ++ [x]) le_rfl (by simp)]
  rw [set_append_own, coe_append]
  show (↑l + {x} : Multiset α) = x ::ₘ ↑l
  rw [add_comm, Multiset.singleton_add]

theorem heappop_fst (l : List α) (hne : l ≠ []) :
    (heappop lt l).1 = nth l 0 := by
  simp only [heappop]
  by_cases hr : l.dropLast.length > 0
  · rw [if_pos hr]
    show nth l.dropLast 0 = nth l 0
    have hlen := List.length_dropLast l
    exact nth_dropLast l 0 (by omega)
  · rw [if_neg hr]
    show nth l (l.length - 1) = nth l 0
    have hlen := List.length_dropLast l
    have hlpos : 0 < l.length := List.length_pos.mpr hne
    have h1 : l.length - 1 = 0 := by omega
    rw [h1]

theorem heappop_heapInv
    (htr : ∀ a b c, lt a b = true → lt b c = true → lt a c = true)
    (hneg : ∀ a b c, lt a b = false → lt b c = false → lt a c = false)
    (hasym : ∀ a b, lt a b = true → lt b a = false)
    (l : List α) (hinv : heapInvP lt l) :
    heapInvP lt (heappop lt l).2 := by
  simp only [heappop]
  by_cases hr : l.dropLast.length > 0
  · rw [if_pos hr]
    show heapInvP lt (siftup lt (l.dropLast.set 0 (nth l (l.length - 1))) 0)
    unfold siftup
    have hlen0 : (l.dropLast.set 0 (nth l (l.length - 1))).length = l.dropLast.length :=
      List.length_set _ _ _
    have hldrop := List.length_dropLast l
    rw [nth_set_self l.dropLast 0 _ hr]
    apply siftupGo_heapInv lt htr hneg hasym (nth l (l.length - 1))
      (l.dropLast.set 0 (nth l (l.length - 1))).length 0
      (l.dropLast.set 0 (nth l (l.length - 1))) (by omega) (by rw [hlen0]; exact hr)
    · intro j hj hj0 hjne hpjne
      rw [hlen0] at hj
      have hplt : parentIdx j < j := parentIdx_lt hj0
      rw [nth_set_ne _ 0 j _ (by omega), nth_set_ne _ 0 (parentIdx j) _ (by omega),
        nth_dropLast l j (by omega), nth_dropLast l (parentIdx j) (by omega)]
      exact hinv j (by omega) hj0
    · intro h0
      exact absurd h0 (by omega)
  · rw [if_neg hr]
    show heapInvP lt l.dropLast
    intro j hj hj0
    exact absurd hj (by omega)

theorem heappop_perm (l : List α) (hne : l ≠ []) :
    (↑l : Multiset α) = (heappop lt l).1 ::ₘ ↑(heappop lt l).2 := by
  simp only [heappop]
  by_cases hr : l.dropLast.length > 0
  · rw [if_pos hr]
    show (↑l : Multiset α)
      = nth l.dropLast 0 ::ₘ ↑(siftup lt (l.dropLast.set 0 (nth l (l.length - 1))) 0)
    unfold siftup
    have hlen0 : (l.dropLast.set 0 (nth l (l.length - 1))).length = l.dropLast.length :=
      List.length_set _ _ _
    rw [nth_set_self l.dropLast 0 _ hr]
    rw [siftupGo_perm lt (nth l (l.length - 1))
      (l.dropLast.set 0 (nth l (l.length - 1))).length 0
      (l.dropLast.set 0 (nth l (l.length - 1))) (by omega) (by rw [hlen0]; exact hr)]
    rw [List.set_set]
    have c1 := coe_set_add_nth l.dropLast 0 (nth l (l.length - 1)) hr
    have c2 : (↑l : Multiset α) = ↑l.dropLast + {nth l (l.length - 1)} := by
      conv_lhs => rw [← dropLast_append_own l hne]
      rw [coe_append]
      rfl
    rw [c2, ← c1, add_comm, Multiset.singleton_add]
  · rw [if_neg hr]
    show (↑l : Multiset α) = nth l (l.length - 1) ::ₘ ↑l.dropLast
    have h2 : l.dropLast = [] := List.eq_nil_of_length_eq_zero (by omega)
    conv_lhs => rw [← dropLast_append_own l hne]
    rw [h2]
    rfl

/-- `heappop` returns an element no other heap element is strictly below:
with the heap invariant, the root is a minimum. -/
theorem heappop_min
    (hirr : ∀ a, lt a a = false)
    (hneg : ∀ a b c, lt a b = false → lt b c = false → lt a c = false)
    (l : List α) (hinv : heapInvP lt l) (hne : l ≠ []) :
    ∀ y ∈ l, lt y ((heappop lt l).1) = false := by
  intro y hy
  rw [heappop_fst lt l hne]
  obtain ⟨k, hk, hnth⟩ := mem_nth l y hy
  rw [← hnth]
  exact heapInv_root_le lt hirr hneg l hinv k hk

end HeapProofs

/-! ### `src/orchestration/task_manager.py`

`Task` is a dataclass with `order=True`: instances compare as the tuple of
their `compare=True` fields, `(priority, created_at)`.  `created_at` is
`datetime.utcnow().timestamp()` — a wall-clock value supplied here as the
explicit `now` argument of `enqueue`; successive reads may coincide.
`TaskManager._counter` (an `itertools.count`) is advanced only to build the
fallback task id `task-<n>`; it does not enter the heap order.
Python dicts (`_in_progress`, `_completed`) are association lists with
overwrite-on-insert; only lookup and containment are ever used. -/

structure Payload where
  task_id : Option String := none
  context_id : String := ""
  project_id : String := ""
  version_id : String := ""
  session_id : String := ""
deriving DecidableEq, Inhabited

structure Task where
  priority : Int
  created_at : Int
  task_id : String
  task_type : String
  payload : Payload
  depends_on : Option String := none
deriving DecidableEq, Inhabited

/-- `Task.__lt__`: lexicographic comparison of `(priority, created_at)`. -/
def taskLt (a b : Task) : Bool :=
  decide (a.priority < b.priority)
    || (decide (a.priority = b.priority) && decide (a.created_at < b.created_at))

/-- One `_completed` entry written by `mark_complete`. -/
structure CompletedEntry where
  task_type : String
  payload : Payload
  completed_at : String
  result : List (String × String)
deriving DecidableEq, Inhabited

def alContains {β : Type} (k : String) (l : List (String × β)) : Bool :=
  l.any (fun p => p.1 == k)

def alGet {β : Type} (k : String) (l : List (String × β)) : Option β :=
  (l.find? (fun p => p.1 == k)).map (fun p => p.2)

def alErase {β : Type} (k : String) (l : List (String × β)) : List (String × β) :=
  l.filter (fun p => !(p.1 == k))

def alInsert {β : Type} (k : String) (v : β) (l : List (String × β)) :
    List (String × β) :=
  (k, v) :: alErase k l

structure TMState where
  counter : Nat := 0
  queue : List Task := []
  in_progress : List (String × Task) := []
  completed : List (String × CompletedEntry) := []
deriving DecidableEq, Inhabited

/-- `TaskManager.__init__`. -/
def tmInit : TMState := {}

/-- `TaskManager.enqueue`.  `payload.get("task_id") or f"task-{next(self._counter)}"`:
the fallback (and the counter step) fires exactly when the payload's task id
is missing or falsy (the empty string). -/
def enqueue (s : TMState) (task_type : String) (payload : Payload)
    (priority : Int) (depends_on : Option String) (now : Int) : String × TMState :=
  let fresh := "task-" ++ toString s.counter
  let idc : String × Nat :=
    match payload.task_id with
    | some tid => if tid = "" then (fresh, s.counter + 1) else (tid, s.counter)
    | none => (fresh, s.counter + 1)
  let task : Task :=
    { priority := priority, created_at := now, task_id := idc.1,
      task_type := task_type, payload := payload, depends_on := depends_on }
  (idc.1, { s with counter := idc.2, queue := heappush taskLt s.queue task })

/-- The guard `candidate.depends_on and candidate.depends_on not in self._completed`:
truthily set (neither `None` nor `""`) and not a key of the completed map. -/
def depBlocked (t : Task) (completed : List (String × CompletedEntry)) : Bool :=
  match t.depends_on with
  | none => false
  | some d => (d != "") && !(alContains d completed)

/-- `TaskManager.dequeue`.  The Python body is `while self._queue:` with no
bound: `fuel` counts loop iterations, so `(none, s)` with a non-empty queue
means the fuel ran out while the Python loop would still be running.  A
dependency-blocked head is re-pushed with `priority + 1` and the scan
continues; a runnable head is moved into `_in_progress` and returned. -/
def dequeueFuel : Nat → TMState → Option Task × TMState
  | 0, s => (none, s)
  | fuel + 1, s =>
    if s.queue.length > 0 then
      let candidate := (heappop taskLt s.queue).1
      let rest := (heappop taskLt s.queue).2
      if depBlocked candidate s.completed then
        dequeueFuel fuel
          { s with queue :=
              heappush taskLt rest { candidate with priority := candidate.priority + 1 } }
      else
        (some candidate,
          { s with
            queue := rest
            in_progress := alInsert candidate.task_id candidate s.in_progress })
    else
      (none, s)

/-- `TaskManager.mark_complete` (`now` is `datetime.utcnow().isoformat()`;
`result or {}` yields `{}` for both `None` and an empty dict). -/
def mark_complete (s : TMState) (task_id : String)
    (result : Option (List (String × String))) (now : String) : TMState :=
  match alGet task_id s.in_progress with
  | none => s
  | some task =>
    { s with
      in_progress := alErase task_id s.in_progress
      completed := alInsert task_id
        { task_type := task.task_type, payload := task.payload,
          completed_at := now, result := result.getD [] } s.completed }

/-! #### The strict-weak-order facts about `taskLt` -/

theorem taskLt_iff (a b : Task) :
    taskLt a b = true ↔
      (a.priority < b.priority ∨
        (a.priority = b.priority ∧ a.created_at < b.created_at)) := by
  simp [taskLt]

theorem taskLt_false_iff (a b : Task) :
    taskLt a b = false ↔
      ¬(a.priority < b.priority ∨
        (a.priority = b.priority ∧ a.created_at < b.created_at)) := by
  rw [← taskLt_iff]
  cases taskLt a b <;> simp

theorem taskLt_irrefl : ∀ a : Task, taskLt a a = false := by
  intro a
  rw [taskLt_false_iff]
  omega

theorem taskLt_trans :
    ∀ a b c : Task, taskLt a b = true → taskLt b c = true → taskLt a c = true := by
  intro a b c h1 h2
  rw [taskLt_iff] at h1 h2 ⊢
  omega

theorem taskLt_negtrans :
    ∀ a b c : Task, taskLt a b = false → taskLt b c = false → taskLt a c = false := by
  intro a b c h1 h2
  rw [taskLt_false_iff] at h1 h2 ⊢
  omega

theorem taskLt_asymm :
    ∀ a b : Task, taskLt a b = true → taskLt b a = false := by
  intro a b h
  rw [taskLt_iff] at h
  rw [taskLt_false_iff]
  omega

/-! #### Dequeue preserves the heap invariant -/

theorem dequeueFuel_heapInv :
    ∀ (fuel : Nat) (s : TMState), heapInvP taskLt s.queue →
      heapInvP taskLt ((dequeueFuel fuel s).2).queue := by
  intro fuel
  induction fuel with
  | zero => intro s h; exact h
  | succ fuel ih =>
    intro s h
    simp only [dequeueFuel]
    by_cases hq : s.queue.length > 0
    · rw [if_pos hq]
      by_cases hb : depBlocked (heappop taskLt s.queue).1 s.completed = true
      · rw [if_pos hb]
        apply ih
        exact heappush_heapInv taskLt taskLt_trans taskLt_negtrans taskLt_asymm _ _
          (heappop_heapInv taskLt taskLt_trans taskLt_negtrans taskLt_asymm _ h)
      · rw [if_neg hb]
        exact heappop_heapInv taskLt taskLt_trans taskLt_negtrans taskLt_asymm _ h
    · rw [if_neg hq]
      exact h

/-! #### Concrete TaskManager scenarios used by the claim witnesses -/

def c1pl0 : Payload :=
  { task_id := some "t1", context_id := "c", project_id := "p",
    version_id := "v", session_id := "s" }

def c1pl1 : Payload := { c1pl0 with task_id := some "t2" }

def c1runnable : Task :=
  { priority := 1, created_at := 1, task_id := "t2", task_type := "clause_review",
    payload := c1pl1, depends_on := none }

/-- A queue holding one dependency-blocked task and one runnable one. -/
def c1state : TMState :=
  (enqueue (enqueue tmInit "clause_review" c1pl0 1 (some "missing") 0).2
    "clause_review" c1pl1 1 none 1).2

def c1emptyPayload : Payload :=
  { task_id := some "tE", context_id := "c", project_id := "p",
    version_id := "v", session_id := "s" }

def c1emptyTask : Task :=
  { priority := 1, created_at := 0, task_id := "tE", task_type := "clause_review",
    payload := c1emptyPayload, depends_on := some "" }

/-- A queue holding one task enqueued with `depends_on=""`. -/
def c1emptyDepState : TMState :=
  (enqueue tmInit "clause_review" c1emptyPayload 1 (some "") 0).2

def c2payload : Payload :=
  { task_id := some "t-blocked", context_id := "c", project_id := "p",
    version_id := "v", session_id := "s" }

def c2task (p : Int) : Task :=
  { priority := p, created_at := 0, task_id := "t-blocked",
    task_type := "clause_review", payload := c2payload, depends_on := some "missing" }

/-- A queue whose only task depends on a task id that is never completed. -/
def c2state (p : Int) : TMState :=
  { counter := 0, queue := [c2task p], in_progress := [], completed := [] }

def c4payload (id : String) : Payload :=
  { task_id := some id, context_id := "c", project_id := "p",
    version_id := "v", session_id := "s" }

/-- Four tasks enqueued A, B, C, D with equal priority and equal creation
timestamps (`datetime.utcnow().timestamp()` returning the same value on
consecutive reads). -/
def c4state : TMState :=
  (enqueue (enqueue (enqueue (enqueue tmInit "w" (c4payload "A") 5 none 100).2
    "w" (c4payload "B") 5 none 100).2 "w" (c4payload "C") 5 none 100).2
    "w" (c4payload "D") 5 none 100).2

def c4wa : Task :=
  { priority := 5, created_at := 100, task_id := "A", task_type := "w",
    payload := c4payload "A", depends_on := none }

def c4wb : Task :=
  { priority := 5, created_at := 200, task_id := "B", task_type := "w",
    payload := c4payload "B", depends_on := none }

/-- Two equal-priority tasks with distinct creation timestamps. -/
def c4wstate : TMState :=
  (enqueue (enqueue tmInit "w" (c4payload "A") 5 none 100).2
    "w" (c4payload "B") 5 none 200).2

/-- The requeue step of `dequeue` on a blocked head: pop it, bump its
priority by one, push it back (task_manager.py lines 62-64). -/
def requeueState (s : TMState) : TMState :=
  let candidate := (heappop taskLt s.queue).1
  let rest := (heappop taskLt s.queue).2
  { s with queue := heappush taskLt rest { candidate with priority := candidate.priority + 1 } }

/-! #### C1 -/

/-- C1 (amended): over any TaskManager state (hence any operation sequence),
whenever `dequeue` returns a task, its `depends_on` is unset, or is the empty
string (which the code's truthiness test treats as no dependency), or is a
key of the completed map at that moment; and a dependency-blocked head is not
discarded: it is reinserted with its priority incremented by 1 and the scan
continues with the rest of the heap. -/
theorem c1_dequeue_dependency_gating :
    (∀ (fuel : Nat) (s : TMState) (t : Task) (s₂ : TMState),
        dequeueFuel fuel s = (some t, s₂) →
        t.depends_on = none ∨
          ∃ d, t.depends_on = some d ∧ (d = "" ∨ alContains d s.completed = true))
    ∧ (∀ (fuel : Nat) (s : TMState),
        s.queue.length > 0 →
        depBlocked (heappop taskLt s.queue).1 s.completed = true →
        dequeueFuel (fuel + 1) s = dequeueFuel fuel (requeueState s)) := by
  constructor
  · intro fuel
    induction fuel with
    | zero =>
      intro s t s₂ h
      simp [dequeueFuel] at h
    | succ fuel ih =>
      intro s t s₂ h
      simp only [dequeueFuel] at h
      by_cases hq : s.queue.length > 0
      · rw [if_pos hq] at h
        by_cases hb : depBlocked (heappop taskLt s.queue).1 s.completed = true
        · rw [if_pos hb] at h
          exact ih (requeueState s) t s₂ h
        · rw [if_neg hb] at h
          rw [Prod.mk.injEq] at h
          obtain ⟨h1, _⟩ := h
          obtain rfl : (heappop taskLt s.queue).1 = t := Option.some.inj h1
          cases hdep : (heappop taskLt s.queue).1.depends_on with
          | none => exact Or.inl rfl
          | some d =>
            refine Or.inr ⟨d, rfl, ?_⟩
            by_cases hd : d = ""
            · exact Or.inl hd
            · refine Or.inr ?_
              cases hca : alContains d s.completed with
              | true => rfl
              | false =>
                exfalso
                apply hb
                simp only [depBlocked, hdep, hca]
                simp [hd]
      · rw [if_neg hq] at h
        simp at h
  · intro fuel s hq hb
    simp only [dequeueFuel]
    rw [if_pos hq, if_pos hb]
    rfl

/-- Witness for C1: in `c1state` the blocked head is requeued with its
priority bumped and the runnable task is then returned; its dependency field
satisfies the dequeue guarantee. -/
theorem c1_dequeue_dependency_gating_witness :
    (dequeueFuel 2 c1state = (some c1runnable, (dequeueFuel 2 c1state).2)
      ∧ (c1runnable.depends_on = none ∨
          ∃ d, c1runnable.depends_on = some d ∧
            (d = "" ∨ alContains d c1state.completed = true)))
    ∧ (c1state.queue.length > 0
      ∧ depBlocked (heappop taskLt c1state.queue).1 c1state.completed = true
      ∧ dequeueFuel (1 + 1) c1state = dequeueFuel 1 (requeueState c1state)) :=
  ⟨⟨by decide, c1_dequeue_dependency_gating.1 2 c1state c1runnable
      ((dequeueFuel 2 c1state).2) (by decide)⟩,
   by decide, by decide,
   c1_dequeue_dependency_gating.2 1 c1state (by decide) (by decide)⟩

/-- C1 counterexample to the claim as stated: a task enqueued with
`depends_on=""` has its dependency field set (not unset), the completed map
is empty, yet `dequeue` returns it — `""` is falsy, so the code treats it as
no dependency. -/
theorem c1_counterexample_empty_string_dependency :
    (dequeueFuel 1 c1emptyDepState).1 = some c1emptyTask
    ∧ c1emptyTask.depends_on = some ""
    ∧ c1emptyDepState.completed = []
    ∧ alContains "" c1emptyDepState.completed = false := by decide

/-! #### C2 -/

/-- One scan iteration on the all-blocked singleton queue pops the task and
reinserts it with its priority incremented. -/
theorem c2_step (p : Int) (fuel : Nat) :
    dequeueFuel (fuel + 1) (c2state p) = dequeueFuel fuel (c2state (p + 1)) := rfl

/-- C2: the queue state reached by enqueueing a single task whose dependency
is never satisfied makes `dequeue` loop forever: for every iteration bound
`fuel`, the scan has neither returned a task nor emptied the queue, so the
unbounded Python `while` loop never exits and `run` never reaches its
iteration check. -/
theorem c2_dequeue_diverges_when_all_blocked :
    c2state 1 = (enqueue tmInit "clause_review" c2payload 1 (some "missing") 0).2
    ∧ ∀ (fuel : Nat) (p : Int),
        (dequeueFuel fuel (c2state p)).1 = none
        ∧ (dequeueFuel fuel (c2state p)).2.queue ≠ [] := by
  constructor
  · decide
  · intro fuel
    induction fuel with
    | zero =>
      intro p
      exact ⟨rfl, by simp [dequeueFuel, c2state]⟩
    | succ fuel ih =>
      intro p
      rw [c2_step]
      exact ih (p + 1)

/-! #### C4 -/

/-- C4 counterexample: four tasks enqueued A, B, C, D with equal priority and
equal creation timestamps; the first dequeue returns A but the second returns
C — not B — because the heap order on tied `(priority, created_at)` keys is
not insertion order (the spec's strictly increasing counter is not part of
the comparison key; `_counter` only generates fallback task ids). -/
theorem c4_counterexample_fifo_violated :
    ((dequeueFuel 1 c4state).1.map Task.task_id = some "A")
    ∧ ((dequeueFuel 1 (dequeueFuel 1 c4state).2).1.map Task.task_id = some "C") := by
  decide

/-- C4 (amended): the heap is ordered by `(priority, created_at)` where
`created_at` is the enqueue-time clock value.  The heap invariant holds for
the empty queue and is preserved by `enqueue` and `dequeue`; and whenever two
queued tasks have equal priority and strictly increasing creation timestamps
(and the earlier one has no dependency), no dequeue can return the later one
first.  FIFO for equal priorities therefore holds exactly when the creation
timestamps are strictly increasing; it can fail when they tie. -/
theorem c4_amended_tiebreak_created_at :
    heapInvP taskLt tmInit.queue
    ∧ (∀ (s : TMState) (tt : String) (pl : Payload) (prio : Int)
          (dep : Option String) (now : Int),
        heapInvP taskLt s.queue →
        heapInvP taskLt ((enqueue s tt pl prio dep now).2).queue)
    ∧ (∀ (fuel : Nat) (s : TMState), heapInvP taskLt s.queue →
        heapInvP taskLt ((dequeueFuel fuel s).2).queue)
    ∧ (∀ (fuel : Nat) (s : TMState) (a b t : Task) (s₂ : TMState),
        heapInvP taskLt s.queue →
        a ∈ s.queue → b ∈ s.queue →
        a.priority = b.priority → a.created_at < b.created_at →
        a.depends_on = none →
        dequeueFuel fuel s = (some t, s₂) → t ≠ b) := by
  refine ⟨by decide, ?_, dequeueFuel_heapInv, ?_⟩
  · intro s tt pl prio dep now h
    exact heappush_heapInv taskLt taskLt_trans taskLt_negtrans taskLt_asymm s.queue _ h
  · intro fuel
    induction fuel with
    | zero =>
      intro s a b t s₂ hinv ha hb hprio hca hdep heq
      simp [dequeueFuel] at heq
    | succ fuel ih =>
      intro s a b t s₂ hinv ha hb hprio hca hdep heq
      have hne : s.queue ≠ [] := by
        intro h
        rw [h] at ha
        simp at ha
      have hq : s.queue.length > 0 := List.length_pos.mpr hne
      have hlt_ab : taskLt a b = true := by
        rw [taskLt_iff]
        omega
      have hmin := heappop_min taskLt taskLt_irrefl taskLt_negtrans s.queue hinv hne
      have hcand_ne_b : (heappop taskLt s.queue).1 ≠ b := by
        intro hcb
        have hfa := hmin a ha
        rw [hcb] at hfa
        rw [hfa] at hlt_ab
        exact absurd hlt_ab (by simp)
      simp only [dequeueFuel] at heq
      rw [if_pos hq] at heq
      by_cases hbk : depBlocked (heappop taskLt s.queue).1 s.completed = true
      · rw [if_pos hbk] at heq
        have hcand_ne_a : (heappop taskLt s.queue).1 ≠ a := by
          intro hca2
          rw [hca2] at hbk
          simp [depBlocked, hdep] at hbk
        have hperm := heappop_perm taskLt s.queue hne
        have hpushperm := heappush_perm taskLt (heappop taskLt s.queue).2
          { (heappop taskLt s.queue).1 with
            priority := (heappop taskLt s.queue).1.priority + 1 }
        have hmem : ∀ y : Task, y ∈ s.queue → y ≠ (heappop taskLt s.queue).1 →
            y ∈ heappush taskLt (heappop taskLt s.queue).2
              { (heappop taskLt s.queue).1 with
                priority := (heappop taskLt s.queue).1.priority + 1 } := by
          intro y hy hyne
          have h1 : y ∈ (↑s.queue : Multiset Task) := Multiset.mem_coe.mpr hy
          rw [hperm] at h1
          rcases Multiset.mem_cons.mp h1 with h | h
          · exact absurd h hyne
          · have h2 : y ∈ (↑(heappush taskLt (heappop taskLt s.queue).2
                { (heappop taskLt s.queue).1 with
                  priority := (heappop taskLt s.queue).1.priority + 1 }) : Multiset Task) := by
              rw [hpushperm]
              exact Multiset.mem_cons_of_mem h
            exact Multiset.mem_coe.mp h2
        exact ih _ a b t s₂
          (heappush_heapInv taskLt taskLt_trans taskLt_negtrans taskLt_asymm _ _
            (heappop_heapInv taskLt taskLt_trans taskLt_negtrans taskLt_asymm _ hinv))
          (hmem a ha (Ne.symm hcand_ne_a)) (hmem b hb (Ne.symm hcand_ne_b)) hprio hca hdep heq
      · rw [if_neg hbk] at heq
        rw [Prod.mk.injEq] at heq
        obtain ⟨h1, _⟩ := heq
        rw [← Option.some.inj h1]
        exact hcand_ne_b

/-! ### `src/agents/editor.py` — conflict detection

`EditorAgent._detect_conflicts` groups the batch by `clause_id` (a dict in
insertion order), compares every unordered pair inside each group with
`_edits_overlap`, and appends each conflicting partner's `edit_id` to the
other's `conflicts_with` — earlier partners are appended during their own
outer pass, later ones during the edit's pass, both in list order.  The
in-place mutation is modelled by rebuilding each edit with its final
`conflicts_with`. -/

structure Deletion where
  start_char : Int
  end_char : Int
deriving DecidableEq, Inhabited

structure Insertion where
  position_char : Int
deriving DecidableEq, Inhabited

structure Edit where
  edit_id : String
  clause_id : String
  deletions : List Deletion := []
  insertions : List Insertion := []
  conflicts_with : List String := []
deriving DecidableEq, Inhabited

/-- `EditorAgent._get_edit_ranges`: each deletion contributes
`(start_char, end_char)`, each insertion `(position_char, position_char+1)`. -/
def get_edit_ranges (e : Edit) : List (Int × Int) :=
  e.deletions.map (fun d => (d.start_char, d.end_char))
    ++ e.insertions.map (fun i => (i.position_char, i.position_char + 1))

/-- The open-interval non-overlap test `end1 <= start2 or end2 <= start1`,
negated. -/
def ranges_overlap (r1 r2 : Int × Int) : Bool :=
  !(decide (r1.2 ≤ r2.1) || decide (r2.2 ≤ r1.1))

/-- `EditorAgent._edits_overlap`: some range of one intersects some range of
the other. -/
def edits_overlap (e1 e2 : Edit) : Bool :=
  (get_edit_ranges e1).any fun r1 =>
    (get_edit_ranges e2).any fun r2 => ranges_overlap r1 r2

/-- `EditorAgent._detect_conflicts`: the edit at index `k` ends with its
original `conflicts_with` (always `[]` at the call site) extended by the ids
of the earlier same-clause conflicting edits, then the later ones, in list
order. -/
def detect_conflicts (edits : List Edit) : List Edit :=
  (List.range edits.length).map fun k =>
    let e := nth edits k
    { e with conflicts_with := e.conflicts_with
        ++ ((edits.take k).filter fun x =>
              x.clause_id == e.clause_id && edits_overlap x e).map Edit.edit_id
        ++ ((edits.drop (k + 1)).filter fun x =>
              x.clause_id == e.clause_id && edits_overlap e x).map Edit.edit_id }

theorem nth_map_range {α : Type} [Inhabited α] (f : Nat → α) (n i : Nat)
    (h : i < n) : nth ((List.range n).map f) i = f i := by
  unfold nth
  rw [List.get?_map, List.get?_range h]
  rfl

theorem nth_mem_take {α : Type} [Inhabited α] :
    ∀ (l : List α) (j k : Nat), j < k → j < l.length → nth l j ∈ l.take k := by
  intro l
  induction l with
  | nil => intro j k _ h; simp at h
  | cons x xs ih =>
    intro j k hjk hj
    cases k with
    | zero => omega
    | succ k =>
      cases j with
      | zero => simp [nth_cons_zero]
      | succ j =>
        rw [nth_cons_succ]
        simp only [List.take]
        exact List.mem_cons_of_mem x (ih j k (by omega) (by simpa using hj))

theorem nth_mem_drop {α : Type} [Inhabited α] :
    ∀ (l : List α) (j k : Nat), k ≤ j → j < l.length → nth l j ∈ l.drop k := by
  intro l
  induction l with
  | nil => intro j k _ h; simp at h
  | cons x xs ih =>
    intro j k hkj hj
    cases k with
    | zero => simp only [List.drop]; exact nth_mem (x :: xs) j hj
    | succ k =>
      cases j with
      | zero => omega
      | succ j =>
        rw [nth_cons_succ]
        simp only [List.drop]
        exact ih j k (by omega) (by simpa using hj)

theorem ranges_overlap_comm (r1 r2 : Int × Int) :
    ranges_overlap r1 r2 = ranges_overlap r2 r1 := by
  unfold ranges_overlap
  rw [Bool.or_comm]

theorem edits_overlap_comm (e1 e2 : Edit) :
    edits_overlap e1 e2 = edits_overlap e2 e1 := by
  cases h : edits_overlap e2 e1 with
  | true =>
    simp only [edits_overlap, List.any_eq_true] at h ⊢
    obtain ⟨r2, hr2, r1, hr1, hov⟩ := h
    exact ⟨r1, hr1, r2, hr2, by rw [ranges_overlap_comm]; exact hov⟩
  | false =>
    simp only [edits_overlap, List.any_eq_false] at h ⊢
    intro r1 hr1 hcon
    rw [List.any_eq_true] at hcon
    obtain ⟨r2, hr2, hov⟩ := hcon
    rw [ranges_overlap_comm] at hov
    exact h r2 hr2 (by rw [List.any_eq_true]; exact ⟨r1, hr1, hov⟩)

/-- C3: with the call-site invariants (fresh edits carry empty
`conflicts_with` lists and pairwise distinct edit ids), after conflict
detection edit `j`'s id stands in edit `i`'s `conflicts_with` if and only if
the two edits target the same clause and some affected range of one
intersects some affected range of the other; the marking is symmetric. -/
theorem c3_conflict_marking_iff :
    ∀ (edits : List Edit),
      (∀ e ∈ edits, e.conflicts_with = []) →
      (edits.map Edit.edit_id).Nodup →
      (∀ i j, i < edits.length → j < edits.length → i ≠ j →
        ((nth edits j).edit_id ∈ (nth (detect_conflicts edits) i).conflicts_with ↔
          ((nth edits i).clause_id = (nth edits j).clause_id
            ∧ edits_overlap (nth edits i) (nth edits j) = true)))
      ∧ (∀ i j, i < edits.length → j < edits.length → i ≠ j →
          (nth edits j).edit_id ∈ (nth (detect_conflicts edits) i).conflicts_with →
          (nth edits i).edit_id ∈ (nth (detect_conflicts edits) j).conflicts_with) := by
  intro edits hempty hnodup
  have hinj : ∀ x ∈ edits, ∀ y ∈ edits, x.edit_id = y.edit_id → x = y :=
    List.inj_on_of_nodup_map hnodup
  have hmain : ∀ i j, i < edits.length → j < edits.length → i ≠ j →
      ((nth edits j).edit_id ∈ (nth (detect_conflicts edits) i).conflicts_with ↔
        ((nth edits i).clause_id = (nth edits j).clause_id
          ∧ edits_overlap (nth edits i) (nth edits j) = true)) := by
    intro i j hi hj hij
    rw [show nth (detect_conflicts edits) i = _ from nth_map_range _ edits.length i hi]
    simp only [List.mem_append, List.mem_map, List.mem_filter,
      hempty (nth edits i) (nth_mem edits i hi), List.not_mem_nil, false_or]
    constructor
    · rintro (⟨x, ⟨hxmem, hxcond⟩, hxid⟩ | ⟨x, ⟨hxmem, hxcond⟩, hxid⟩)
      · have hxed : x ∈ edits := List.take_subset i edits hxmem
        have hxeq : x = nth edits j := hinj x hxed (nth edits j) (nth_mem edits j hj) hxid
        subst hxeq
        rw [Bool.and_eq_true, beq_iff_eq] at hxcond
        exact ⟨hxcond.1.symm, by rw [edits_overlap_comm]; exact hxcond.2⟩
      · have hxed : x ∈ edits := List.drop_subset (i + 1) edits hxmem
        have hxeq : x = nth edits j := hinj x hxed (nth edits j) (nth_mem edits j hj) hxid
        subst hxeq
        rw [Bool.and_eq_true, beq_iff_eq] at hxcond
        exact ⟨hxcond.1.symm, hxcond.2⟩
    · rintro ⟨hcl, hov⟩
      rcases Nat.lt_or_ge j i with hji | hji
      · refine Or.inl ⟨nth edits j, ⟨nth_mem_take edits j i hji hj, ?_⟩, rfl⟩
        rw [Bool.and_eq_true, beq_iff_eq]
        exact ⟨hcl.symm, by rw [edits_overlap_comm]; exact hov⟩
      · have hji2 : i + 1 ≤ j := by omega
        refine Or.inr ⟨nth edits j, ⟨nth_mem_drop edits j (i + 1) hji2 hj, ?_⟩, rfl⟩
        rw [Bool.and_eq_true, beq_iff_eq]
        exact ⟨hcl.symm, hov⟩
  refine ⟨hmain, ?_⟩
  intro i j hi hj hij hmem
  rw [hmain j i hj hi (fun h => hij h.symm)]
  obtain ⟨hcl, hov⟩ := (hmain i j hi hj hij).mp hmem
  exact ⟨hcl.symm, by rw [edits_overlap_comm]; exact hov⟩

def c3editA : Edit :=
  { edit_id := "A", clause_id := "cl1", deletions := [{ start_char := 0, end_char := 10 }] }

def c3editB : Edit :=
  { edit_id := "B", clause_id := "cl1", deletions := [{ start_char := 5, end_char := 15 }] }

/-- Witness for C3: the spec's own scenario — A deletes `[0,10)`, B deletes
`[5,15)` on the same clause — is marked mutually, and the characterization
applies to it. -/
theorem c3_conflict_marking_iff_witness :
    ((nth [c3editA, c3editB] 1).edit_id
        ∈ (nth (detect_conflicts [c3editA, c3editB]) 0).conflicts_with ↔
      ((nth [c3editA, c3editB] 0).clause_id = (nth [c3editA, c3editB] 1).clause_id
        ∧ edits_overlap (nth [c3editA, c3editB] 0) (nth [c3editA, c3editB] 1) = true))
    ∧ (nth (detect_conflicts [c3editA, c3editB]) 0).conflicts_with = ["B"]
    ∧ (nth (detect_conflicts [c3editA, c3editB]) 1).conflicts_with = ["A"] :=
  ⟨(c3_conflict_marking_iff [c3editA, c3editB] (by decide) (by decide)).1
      0 1 (by decide) (by decide) (by decide),
   by decide, by decide⟩

/-! ### `src/agents/diligent_reviewer.py` — relevance filtering and pair dedup

`DiligentReviewerAgent.process` walks the clauses, asks
`_get_relevant_policies` for each (`emb` stands for the external
`embedding_service.search_similar_policies` call used when a clause has no
truthy `clause_type`), and collects `(clause, policy)` pairs, skipping any
whose key `f"{clause_id}:{policy_id}"` is already in the `checked_pairs`
set. -/

structure Clause where
  clause_id : String
  clause_text : String := ""
  clause_type : Option String := none
deriving DecidableEq, Inhabited

structure Policy where
  policy_id : String
  policy_category : Option String := none
  applicable_clauses : List String := []
deriving DecidableEq, Inhabited

/-- The `if clause_type:` loop body: skip already-seen policy ids, keep a
policy on exact category match, else on membership of the clause type in its
`applicable_clauses`. -/
def relevantLoop (ct : String) : List Policy → List String → List Policy
  | [], _ => []
  | p :: rest, seen =>
    if p.policy_id ∈ seen then relevantLoop ct rest seen
    else if p.policy_category = some ct then p :: relevantLoop ct rest (p.policy_id :: seen)
    else if ct ∈ p.applicable_clauses then p :: relevantLoop ct rest (p.policy_id :: seen)
    else relevantLoop ct rest seen

/-- `DiligentReviewerAgent._get_relevant_policies`: category filtering when
`clause_type` is truthy, the similarity search `emb` otherwise, then `[:3]`. -/
def get_relevant_policies (emb : Clause → List Policy) (clause : Clause)
    (all_policies : List Policy) : List Policy :=
  match clause.clause_type with
  | some ct => if ct = "" then (emb clause).take 3 else (relevantLoop ct all_policies []).take 3
  | none => (emb clause).take 3

/-- The dedup key `f"{clause_id}:{policy_id}"`. -/
def pairKey (c : Clause) (p : Policy) : String :=
  c.clause_id ++ ":" ++ p.policy_id

/-- The inner `for policy in relevant_policies:` loop of `process`. -/
def addPairs (c : Clause) : List Policy → List String → List (Clause × Policy) →
    List (Clause × Policy) × List String
  | [], seen, acc => (acc, seen)
  | p :: rest, seen, acc =>
    if pairKey c p ∈ seen then addPairs c rest seen acc
    else addPairs c rest (pairKey c p :: seen) (acc ++ [(c, p)])

/-- The outer `for clause in clauses:` loop of `process`. -/
def buildPairsGo (emb : Clause → List Policy) (policies : List Policy) :
    List Clause → List String → List (Clause × Policy) → List (Clause × Policy)
  | [], _, acc => acc
  | c :: rest, seen, acc =>
    let r := addPairs c (get_relevant_policies emb c policies) seen acc
    buildPairsGo emb policies rest r.2 r.1

/-- `pairs_to_check` as accumulated by `process` before the fan-out. -/
def pairs_to_check (emb : Clause → List Policy) (clauses : List Clause)
    (policies : List Policy) : List (Clause × Policy) :=
  buildPairsGo emb policies clauses [] []

def idPair (cp : Clause × Policy) : String × String :=
  (cp.1.clause_id, cp.2.policy_id)

theorem addPairs_spec (c : Clause) :
    ∀ (ps : List Policy) (seen : List String) (acc : List (Clause × Policy)),
      (∀ k, k ∈ seen ↔ k ∈ acc.map (fun cp => pairKey cp.1 cp.2)) →
      (acc.map (fun cp => pairKey cp.1 cp.2)).Nodup →
      (∀ k, k ∈ (addPairs c ps seen acc).2 ↔
          k ∈ (addPairs c ps seen acc).1.map (fun cp => pairKey cp.1 cp.2))
      ∧ ((addPairs c ps seen acc).1.map (fun cp => pairKey cp.1 cp.2)).Nodup
      ∧ (∀ cp ∈ (addPairs c ps seen acc).1, cp ∈ acc ∨ (cp.1 = c ∧ cp.2 ∈ ps))
      ∧ (∀ p ∈ ps, pairKey c p ∈ (addPairs c ps seen acc).2)
      ∧ (∀ k ∈ seen, k ∈ (addPairs c ps seen acc).2)
      ∧ (∀ cp ∈ acc, cp ∈ (addPairs c ps seen acc).1) := by
  intro ps
  induction ps with
  | nil =>
    intro seen acc hiff hnd
    exact ⟨hiff, hnd, fun cp h => Or.inl h, fun p h => absurd h (List.not_mem_nil p),
      fun k h => h, fun cp h => h⟩
  | cons p rest ih =>
    intro seen acc hiff hnd
    simp only [addPairs]
    by_cases hk : pairKey c p ∈ seen
    · rw [if_pos hk]
      obtain ⟨h1, h2, h3, h4, h5, h6⟩ := ih seen acc hiff hnd
      refine ⟨h1, h2, fun cp h => (h3 cp h).imp id (fun ⟨he, hp⟩ => ⟨he, List.mem_cons_of_mem p hp⟩),
        ?_, h5, h6⟩
      intro q hq
      rcases List.mem_cons.mp hq with rfl | hq
      · exact h5 _ hk
      · exact h4 q hq
    · rw [if_neg hk]
      have hiff2 : ∀ k, k ∈ (pairKey c p :: seen) ↔
          k ∈ (acc ++ [(c, p)]).map (fun cp => pairKey cp.1 cp.2) := by
        intro k
        rw [List.mem_cons, List.map_append, List.mem_append, hiff]
        simp [or_comm]
      have hnd2 : ((acc ++ [(c, p)]).map (fun cp => pairKey cp.1 cp.2)).Nodup := by
        rw [List.map_append]
        refine List.Nodup.append hnd (by simp) ?_
        intro k hk1 hk2
        simp only [List.map_cons, List.map_nil, List.mem_singleton] at hk2
        rw [hk2] at hk1
        exact hk ((hiff _).mpr hk1)
      obtain ⟨h1, h2, h3, h4, h5, h6⟩ := ih (pairKey c p :: seen) (acc ++ [(c, p)]) hiff2 hnd2
      refine ⟨h1, h2, ?_, ?_, ?_, ?_⟩
      · intro cp h
        rcases h3 cp h with h | h
        · rcases List.mem_append.mp h with h | h
          · exact Or.inl h
          · simp only [List.mem_singleton] at h
            subst h
            exact Or.inr ⟨rfl, List.mem_cons_self p rest⟩
        · exact Or.inr ⟨h.1, List.mem_cons_of_mem p h.2⟩
      · intro q hq
        rcases List.mem_cons.mp hq with rfl | hq
        · exact h5 _ (List.mem_cons_self _ _)
        · exact h4 q hq
      · intro k hkm
        exact h5 k (List.mem_cons_of_mem _ hkm)
      · intro cp hcp
        exact h6 cp (List.mem_append_left _ hcp)

theorem buildPairsGo_spec (emb : Clause → List Policy) (policies : List Policy) :
    ∀ (cs : List Clause) (seen : List String) (acc : List (Clause × Policy)),
      (∀ k, k ∈ seen ↔ k ∈ acc.map (fun cp => pairKey cp.1 cp.2)) →
      (acc.map (fun cp => pairKey cp.1 cp.2)).Nodup →
      ((buildPairsGo emb policies cs seen acc).map (fun cp => pairKey cp.1 cp.2)).Nodup
      ∧ (∀ cp ∈ buildPairsGo emb policies cs seen acc,
          cp ∈ acc ∨ (cp.1 ∈ cs ∧ cp.2 ∈ get_relevant_policies emb cp.1 policies))
      ∧ (∀ c ∈ cs, ∀ p ∈ get_relevant_policies emb c policies,
          pairKey c p ∈ (buildPairsGo emb policies cs seen acc).map
            (fun cp => pairKey cp.1 cp.2))
      ∧ (∀ cp ∈ acc, cp ∈ buildPairsGo emb policies cs seen acc) := by
  intro cs
  induction cs with
  | nil =>
    intro seen acc _ hnd
    exact ⟨hnd, fun cp h => Or.inl h, fun c h => absurd h (List.not_mem_nil c),
      fun cp h => h⟩
  | cons c rest ih =>
    intro seen acc hiff hnd
    simp only [buildPairsGo]
    obtain ⟨a1, a2, a3, a4, a5, a6⟩ :=
      addPairs_spec c (get_relevant_policies emb c policies) seen acc hiff hnd
    obtain ⟨b1, b2, b3, b4⟩ := ih _ _ a1 a2
    refine ⟨b1, ?_, ?_, ?_⟩
    · intro cp h
      rcases b2 cp h with h | h
      · rcases a3 cp h with h | h
        · exact Or.inl h
        · exact Or.inr ⟨by rw [h.1]; exact List.mem_cons_self c rest, by rw [h.1]; exact h.2⟩
      · exact Or.inr ⟨List.mem_cons_of_mem c h.1, h.2⟩
    · intro c2 hc2 p hp
      rcases List.mem_cons.mp hc2 with rfl | hc2
      · have hkey := a4 p hp
        rw [a1] at hkey
        obtain ⟨cp, hcp, hcpk⟩ := List.mem_map.mp hkey
        exact List.mem_map.mpr ⟨cp, b4 cp hcp, hcpk⟩
      · exact b3 c2 hc2 p hp
    · intro cp hcp
      exact b4 cp (a6 cp hcp)

theorem append_cons_inj {α : Type} (x : α) :
    ∀ (l1 l2 r1 r2 : List α), x ∉ l1 → x ∉ l2 →
      l1 ++ x :: r1 = l2 ++ x :: r2 → l1 = l2 ∧ r1 = r2 := by
  intro l1
  induction l1 with
  | nil =>
    intro l2 r1 r2 _ h2 h
    cases l2 with
    | nil =>
      simp only [List.nil_append] at h
      injection h with _ htail
      exact ⟨rfl, htail⟩
    | cons y ys =>
      simp only [List.nil_append, List.cons_append] at h
      injection h with hxy _
      rw [← hxy] at h2
      exact absurd (List.mem_cons_self x ys) h2
  | cons z zs ih =>
    intro l2 r1 r2 h1 h2 h
    cases l2 with
    | nil =>
      simp only [List.cons_append, List.nil_append] at h
      injection h with hzx _
      rw [hzx] at h1
      exact absurd (List.mem_cons_self x zs) h1
    | cons y ys =>
      simp only [List.cons_append] at h
      injection h with hzy htail
      subst hzy
      obtain ⟨he, hr⟩ := ih ys r1 r2 (fun hm => h1 (List.mem_cons_of_mem z hm))
        (fun hm => h2 (List.mem_cons_of_mem z hm)) htail
      exact ⟨by rw [he], hr⟩

/-- Two dedup keys coincide only for equal id pairs, provided neither
clause id contains the separator `':'`. -/
theorem pairKey_inj (c1 c2 : Clause) (p1 p2 : Policy)
    (h1 : (':' : Char) ∉ c1.clause_id.data) (h2 : (':' : Char) ∉ c2.clause_id.data)
    (h : pairKey c1 p1 = pairKey c2 p2) :
    c1.clause_id = c2.clause_id ∧ p1.policy_id = p2.policy_id := by
  have hdata : c1.clause_id.data ++ ':' :: p1.policy_id.data
      = c2.clause_id.data ++ ':' :: p2.policy_id.data := by
    have := congrArg String.data h
    simpa [pairKey, String.data_append] using this
  obtain ⟨ha, hb⟩ := append_cons_inj ':' _ _ _ _ h1 h2 hdata
  exact ⟨String.ext ha, String.ext hb⟩

def c7clauseA : Clause := { clause_id := "a:b", clause_type := some "t" }

def c7clauseB : Clause := { clause_id := "a", clause_type := some "t" }

def c7polC : Policy := { policy_id := "c", policy_category := some "t" }

def c7polBC : Policy := { policy_id := "b:c", policy_category := some "t" }

/-- Stand-in for the similarity search; never consulted here because every
clause above carries a truthy `clause_type`. -/
def c7emb : Clause → List Policy := fun _ => []

/-- C7 counterexample: with ids containing the separator, the keys
`"a:b" + ":" + "c"` and `"a" + ":" + "b:c"` collide, so the distinct selected
pair `("a", "b:c")` is never evaluated — the claim's "every distinct pair
selected by relevance filtering is evaluated exactly once" fails. -/
theorem c7_counterexample_colon_collision :
    c7polBC ∈ get_relevant_policies c7emb c7clauseB [c7polC, c7polBC]
    ∧ ("a", "b:c") ∉
        (pairs_to_check c7emb [c7clauseA, c7clauseB] [c7polC, c7polBC]).map idPair
    ∧ (pairs_to_check c7emb [c7clauseA, c7clauseB] [c7polC, c7polBC]).map idPair
        = [("a:b", "c"), ("a:b", "b:c"), ("a", "c")] := by decide

/-- C7 (amended): the evaluated pair list never holds the same
`(clause_id, policy_id)` combination twice (unconditionally); and provided no
clause id contains the dedup separator `':'`, every pair selected by
relevance filtering is evaluated exactly once. -/
theorem count_eq_one_of_nodup {α : Type} [BEq α] [LawfulBEq α] :
    ∀ (l : List α) (a : α), l.Nodup → a ∈ l → l.count a = 1 := by
  intro l
  induction l with
  | nil => intro a _ ha; simp at ha
  | cons x xs ih =>
    intro a hnd ha
    rcases List.mem_cons.mp ha with rfl | ha2
    · rw [List.count_cons_self]
      have hnotmem : a ∉ xs := (List.nodup_cons.mp hnd).1
      rw [List.count_eq_zero.mpr hnotmem]
    · have hne : a ≠ x := by
        intro h
        rw [h] at ha2
        exact (List.nodup_cons.mp hnd).1 ha2
      rw [List.count_cons_of_ne hne]
      exact ih a (List.nodup_cons.mp hnd).2 ha2

theorem c7_pair_dedup_exactly_once :
    (∀ (emb : Clause → List Policy) (clauses : List Clause) (policies : List Policy),
        ((pairs_to_check emb clauses policies).map idPair).Nodup)
    ∧ (∀ (emb : Clause → List Policy) (clauses : List Clause) (policies : List Policy),
        (∀ c ∈ clauses, (':' : Char) ∉ c.clause_id.data) →
        ∀ c ∈ clauses, ∀ p ∈ get_relevant_policies emb c policies,
          (c.clause_id, p.policy_id) ∈ (pairs_to_check emb clauses policies).map idPair
          ∧ ((pairs_to_check emb clauses policies).map idPair).count
              (c.clause_id, p.policy_id) = 1) := by
  have hnodup : ∀ (emb : Clause → List Policy) (clauses : List Clause)
      (policies : List Policy),
      ((pairs_to_check emb clauses policies).map idPair).Nodup := by
    intro emb clauses policies
    have h := (buildPairsGo_spec emb policies clauses [] [] (by simp) (by simp)).1
    have hcomp : ((pairs_to_check emb clauses policies).map idPair).map
        (fun q : String × String => q.1 ++ ":" ++ q.2)
        = (pairs_to_check emb clauses policies).map (fun cp => pairKey cp.1 cp.2) := by
      rw [List.map_map]
      rfl
    exact List.Nodup.of_map _ (hcomp ▸ h)
  refine ⟨hnodup, ?_⟩
  intro emb clauses policies hcol c hc p hp
  obtain ⟨hnd, hprov, hkeys, _⟩ :=
    buildPairsGo_spec emb policies clauses [] [] (by simp) (by simp)
  have hk := hkeys c hc p hp
  obtain ⟨cp, hcp, hcpk⟩ := List.mem_map.mp hk
  rcases hprov cp hcp with habs | ⟨hc1, _⟩
  · simp at habs
  · obtain ⟨hcl, hpl⟩ := pairKey_inj cp.1 c cp.2 p (hcol cp.1 hc1) (hcol c hc) hcpk
    have hmem : (c.clause_id, p.policy_id) ∈
        (pairs_to_check emb clauses policies).map idPair :=
      List.mem_map.mpr ⟨cp, hcp, by simp [idPair, hcl, hpl]⟩
    exact ⟨hmem, count_eq_one_of_nodup _ _ (hnodup emb clauses policies) hmem⟩

def c7wclause : Clause := { clause_id := "cl1", clause_type := some "t" }

def c7wpol : Policy := { policy_id := "p1", policy_category := some "t" }

/-- Witness for C7 (amended): with colon-free ids, the single selected pair
appears exactly once in the evaluated list. -/
theorem c7_pair_dedup_exactly_once_witness :
    ((pairs_to_check c7emb [c7wclause] [c7wpol]).map idPair).Nodup
    ∧ (("cl1", "p1") ∈ (pairs_to_check c7emb [c7wclause] [c7wpol]).map idPair
        ∧ ((pairs_to_check c7emb [c7wclause] [c7wpol]).map idPair).count
            ("cl1", "p1") = 1) :=
  ⟨c7_pair_dedup_exactly_once.1 c7emb [c7wclause] [c7wpol],
   c7_pair_dedup_exactly_once.2 c7emb [c7wclause] [c7wpol] (by decide)
     c7wclause (by decide) c7wpol (by decide)⟩

/-- Witness for C4 (amended): the invariant is established by a concrete
enqueue, preserved by a concrete dequeue, and with timestamps 100 < 200 the
later-enqueued equal-priority task is not returned first. -/
theorem c4_amended_tiebreak_created_at_witness :
    heapInvP taskLt ((enqueue tmInit "w" (c4payload "A") 5 none 100).2).queue
    ∧ heapInvP taskLt ((dequeueFuel 1 c4wstate).2).queue
    ∧ c4wa ≠ c4wb :=
  ⟨c4_amended_tiebreak_created_at.2.1 tmInit "w" (c4payload "A") 5 none 100 (by decide),
   c4_amended_tiebreak_created_at.2.2.1 1 c4wstate (by decide),
   c4_amended_tiebreak_created_at.2.2.2 1 c4wstate c4wa c4wb c4wa
     ((dequeueFuel 1 c4wstate).2) (by decide) (by decide) (by decide) (by decide)
     (by decide) (by decide) (by decide)⟩

/-! ### `src/orchestration/project_memory.py`

One JSON file per project.  `_load_project` returns a fresh empty record
both when the file is missing and when `json.loads` raises
`JSONDecodeError`; `_save_project` overwrites the whole file.  The file
system is an association list from project id to `PMFile`; a missing entry
models a missing file, `PMFile.corrupt` a file whose text cannot be parsed.
Timestamps (`datetime.utcnow().isoformat()`) are explicit `now` arguments;
preference values and the clause/policy payloads stored inside contexts are
modelled at the granularity the orchestration layer inspects. -/

structure VersionRecord where
  version_id : String
  source : String
  checksum : String
  created_at : String
  notes : Option String := none
  diff_summary : Option String := none
  graph_snapshot : Option String := none
deriving DecidableEq, Inhabited

structure PreferenceRecord where
  key : String
  value : String
  rationale : Option String := none
  updated_at : String
  source : String
deriving DecidableEq, Inhabited

/-- A JSON value as stored in an event payload (string or `null`). -/
inductive JVal where
  | s (v : String)
  | nullv
deriving DecidableEq, Inhabited

structure AgentEvent where
  timestamp : String
  agent : String
  action : String
  version_id : String
  payload : List (String × JVal) := []
deriving DecidableEq, Inhabited

/-- The per-project record: the fresh one is
`{"project_id": ..., "versions": [], "preferences": {}, "agent_events": []}`
(no `latest_contract_text` key, hence `none`). -/
structure PMData where
  versions : List VersionRecord := []
  preferences : List (String × List (String × PreferenceRecord)) := []
  agent_events : List AgentEvent := []
  latest_contract_text : Option String := none
deriving DecidableEq, Inhabited

inductive PMFile where
  | corrupt
  | good (data : PMData)
deriving DecidableEq, Inhabited

/-- The shared analysis context (`src/agents/state.py`).  Only the fields
the orchestration layer reads or writes are modelled; the accumulating
artifact collections it merely passes through are elided. -/
structure AnalysisContext where
  version_id : String := ""
  session_id : String := ""
  contract_text : String := ""
  current_agent : String := "initializing"
  workflow_stage : String := "reviewing"
  errors : List String := []
deriving DecidableEq, Inhabited

structure PMState where
  files : List (String × PMFile) := []
  live_contexts : List (String × AnalysisContext) := []
deriving DecidableEq, Inhabited

/-- `ProjectMemory._load_project`: a fresh record for a missing or
unparsable file. -/
def load_project (s : PMState) (pid : String) : PMData :=
  match alGet pid s.files with
  | none => {}
  | some PMFile.corrupt => {}
  | some (PMFile.good d) => d

/-- `ProjectMemory._save_project`: whole-file overwrite. -/
def save_project (s : PMState) (pid : String) (d : PMData) : PMState :=
  { s with files := alInsert pid (PMFile.good d) s.files }

/-- `ProjectMemory.record_version`. -/
def record_version (s : PMState) (pid vid source checksum : String)
    (notes graph_snapshot diff_summary : Option String)
    (contract_text : Option String) (now : String) : PMState :=
  let d := load_project s pid
  let rec1 : VersionRecord :=
    { version_id := vid, source := source, checksum := checksum, created_at := now,
      notes := notes, diff_summary := diff_summary, graph_snapshot := graph_snapshot }
  save_project s pid
    { d with
      versions := d.versions ++ [rec1]
      latest_contract_text :=
        match contract_text with
        | some t => some t
        | none => d.latest_contract_text }

def get_version_history (s : PMState) (pid : String) : List VersionRecord :=
  (load_project s pid).versions

/-- `ProjectMemory.record_preference`: latest value wins per (user, key). -/
def record_preference (s : PMState) (pid uid key value : String)
    (rationale : Option String) (source : String) (now : String) : PMState :=
  let d := load_project s pid
  let user_prefs := (alGet uid d.preferences).getD []
  let pref : PreferenceRecord :=
    { key := key, value := value, rationale := rationale,
      updated_at := now, source := source }
  save_project s pid
    { d with preferences := alInsert uid (alInsert key pref user_prefs) d.preferences }

def get_preferences (s : PMState) (pid uid : String) :
    List (String × PreferenceRecord) :=
  (alGet uid (load_project s pid).preferences).getD []

/-- `ProjectMemory.log_agent_event`. -/
def log_agent_event (s : PMState) (pid vid agent_name action : String)
    (payload : List (String × JVal)) (now : String) : PMState :=
  let d := load_project s pid
  let ev : AgentEvent :=
    { timestamp := now, agent := agent_name, action := action,
      version_id := vid, payload := payload }
  save_project s pid { d with agent_events := d.agent_events ++ [ev] }

def get_agent_events (s : PMState) (pid : String) : List AgentEvent :=
  (load_project s pid).agent_events

def get_latest_contract_text (s : PMState) (pid : String) : Option String :=
  (load_project s pid).latest_contract_text

/-- `ProjectMemory.store_context` (non-persistent, in-memory). -/
def store_context (s : PMState) (cid : String) (ctx : AnalysisContext) : PMState :=
  { s with live_contexts := alInsert cid ctx s.live_contexts }

def get_context (s : PMState) (cid : String) : Option AnalysisContext :=
  alGet cid s.live_contexts

/-! #### Association list facts -/

theorem alGet_insert_self {β : Type} (k : String) (v : β) (l : List (String × β)) :
    alGet k (alInsert k v l) = some v := by
  unfold alGet alInsert
  rw [List.find?_cons_of_pos _ (by simp)]
  rfl

theorem find?_filter_ne {β : Type} (k k2 : String) (h : k ≠ k2) :
    ∀ l : List (String × β),
      (l.filter (fun p => !(p.1 == k))).find? (fun p => p.1 == k2)
        = l.find? (fun p => p.1 == k2) := by
  intro l
  induction l with
  | nil => rfl
  | cons p rest ih =>
    by_cases hk : p.1 = k
    · rw [List.filter_cons_of_neg (by simp [hk])]
      rw [ih, List.find?_cons_of_neg _ (by simp [hk]; exact fun hh => h (hk ▸ hh))]
    · rw [List.filter_cons_of_pos (by simp [hk])]
      by_cases hk2 : p.1 = k2
      · rw [List.find?_cons_of_pos _ (by simp [hk2]),
          List.find?_cons_of_pos _ (by simp [hk2])]
      · rw [List.find?_cons_of_neg _ (by simp [hk2]),
          List.find?_cons_of_neg _ (by simp [hk2])]
        exact ih

theorem alGet_insert_ne {β : Type} (k k2 : String) (v : β) (l : List (String × β))
    (h : k ≠ k2) : alGet k2 (alInsert k v l) = alGet k2 l := by
  unfold alGet alInsert alErase
  rw [List.find?_cons_of_neg _ (by simp; exact fun hh => h hh)]
  rw [find?_filter_ne k k2 h l]

theorem load_save (s : PMState) (pid : String) (d : PMData) :
    load_project (save_project s pid d) pid = d := by
  unfold load_project save_project
  rw [alGet_insert_self]

/-! ### `src/orchestration/adaptive_controller.py`

Workers are `AgentAdapter`s whose `handle` is the opaque `process` coroutine:
`Except.error msg` models an exception with text `msg` (`str(exc)`).  Each
wall-clock read of an iteration is an explicit `IterClock` input.  In this
repository `AgentTaskResult.new_tasks` is produced only by `_post_process`,
whose specs carry `task_type`, `priority` and `depends_on` and no payload,
so `run`'s `payload.setdefault(...)` calls always copy the current task's
four payload keys and leave `task_id` unset. -/

structure NewTaskSpec where
  task_type : String
  priority : Int
  depends_on : Option String
deriving DecidableEq, Inhabited

structure AgentTaskResult where
  status : String
  notes : Option String := none
  new_tasks : List NewTaskSpec := []
deriving DecidableEq, Inhabited

structure AgentAdapter where
  name : String
  supported : List String
  handle : AnalysisContext → Except String AnalysisContext

structure Orchestrator where
  memory : PMState := {}
  tasks : TMState := {}
  agents : List AgentAdapter := []

/-- `AdaptiveOrchestrator._select_agent`: first agent whose declared set
contains the task type. -/
def select_agent (agents : List AgentAdapter) (task_type : String) :
    Option AgentAdapter :=
  agents.find? (fun a => task_type ∈ a.supported)

/-- The fixed transition table of `_post_process`. -/
def transitions (tt : String) : List String :=
  if tt = "clause_review" then ["neutral_rationale"]
  else if tt = "neutral_rationale" then ["style_pass"]
  else if tt = "style_pass" then ["editor_pass"]
  else []

/-- `AdaptiveOrchestrator._post_process`. -/
def post_process (agent_name : String) (task : Task) : AgentTaskResult :=
  let next_tasks := (transitions task.task_type).map fun nt =>
    { task_type := nt, priority := task.priority + 1,
      depends_on := some task.task_id : NewTaskSpec }
  { status := if next_tasks.isEmpty then "terminal" else "complete",
    notes := some (agent_name ++ " handled " ++ task.task_type),
    new_tasks := next_tasks }

/-- The wall-clock reads of one `run` iteration. -/
structure IterClock where
  event_time : String := ""
  complete_time : String := ""
  enqueue_time : Int := 0
deriving DecidableEq, Inhabited

inductive IterResult where
  | stopped
  | processed
deriving DecidableEq, Inhabited

/-- The payload `run` builds for a successor task (spec payload `{}` plus
the four `setdefault` keys). -/
def successorPayload (task : Task) : Payload :=
  { task_id := none, context_id := task.payload.context_id,
    project_id := task.payload.project_id, version_id := task.payload.version_id,
    session_id := task.payload.session_id }

/-- The task `run` enqueues for successor type `nt`: bumped priority,
dependency on the finished task, fresh counter-generated id (the successor
payload has no task id). -/
def successorTask (task : Task) (counter : Nat) (nt : String) (now : Int) : Task :=
  { priority := task.priority + 1, created_at := now,
    task_id := "task-" ++ toString counter, task_type := nt,
    payload := successorPayload task, depends_on := some task.task_id }

/-- One iteration of `AdaptiveOrchestrator.run`'s `while` body.  `fuel`
bounds the dequeue scan (see `dequeueFuel`). -/
def runIteration (O : Orchestrator) (fuel : Nat) (clk : IterClock) :
    IterResult × Orchestrator :=
  let dq := dequeueFuel fuel O.tasks
  match dq.1 with
  | none => (IterResult.stopped, { O with tasks := dq.2 })
  | some task =>
    match select_agent O.agents task.task_type with
    | none =>
      (IterResult.processed,
        { O with tasks :=
            mark_complete dq.2 task.task_id (some [("error", "no_agent")]) clk.complete_time })
    | some agent =>
      match get_context O.memory task.payload.context_id with
      | none =>
        (IterResult.processed,
          { O with tasks :=
              mark_complete dq.2 task.task_id (some [("error", "missing_context")]) clk.complete_time })
      | some context =>
        match agent.handle context with
        | Except.ok updated =>
          let mem1 := store_context O.memory task.payload.context_id updated
          let result := post_process agent.name task
          let mem2 := log_agent_event mem1 task.payload.project_id
            task.payload.version_id agent.name "completed"
            [("task_type", JVal.s task.task_type),
             ("notes", match result.notes with | some n => JVal.s n | none => JVal.nullv)]
            clk.event_time
          let tasks2 := result.new_tasks.foldl
            (fun tm spec =>
              (enqueue tm spec.task_type (successorPayload task) spec.priority
                spec.depends_on clk.enqueue_time).2)
            dq.2
          let tasks3 := mark_complete tasks2 task.task_id
            (some [("status", result.status)]) clk.complete_time
          (IterResult.processed,
            { memory := mem2, tasks := tasks3, agents := O.agents })
        | Except.error msg =>
          let mem2 := log_agent_event O.memory task.payload.project_id
            task.payload.version_id agent.name "error"
            [("task_type", JVal.s task.task_type), ("error", JVal.s msg)]
            clk.event_time
          let tasks2 := mark_complete dq.2 task.task_id (some [("error", msg)])
            clk.complete_time
          (IterResult.processed,
            { memory := mem2, tasks := tasks2, agents := O.agents })

/-- `AdaptiveOrchestrator.run`: up to `maxIter` iterations, stopping early
when the queue yields no task. -/
def runLoop (fuel : Nat) (clk : Nat → IterClock) : Nat → Orchestrator → Orchestrator
  | 0, O => O
  | n + 1, O =>
    match runIteration O fuel (clk n) with
    | (IterResult.stopped, O2) => O2
    | (IterResult.processed, O2) => runLoop fuel clk n O2

/-- Python `str.splitlines` at the granularity the diff needs (identical
texts split identically). -/
def splitlines (s : String) : List String := s.splitOn "\n"

/-- Model of `difflib.unified_diff(..., lineterm="")`: equal sequences
produce no groups and hence not a single output line (not even headers,
which are emitted lazily before the first hunk).  The exact hunk text for
differing sequences never matters to the properties here and is modelled as
headers plus the changed lines. -/
def unified_diff (a b : List String) : List String :=
  if a = b then []
  else ["--- ", "+++ "] ++ a.map (fun l => "-" ++ l) ++ b.map (fun l => "+" ++ l)

/-- `AdaptiveOrchestrator._generate_diff`: `None` without a truthy previous
text, else the first 20 diff lines joined, with an empty snippet collapsed
to `None` by `snippet or None`. -/
def generate_diff (s : PMState) (pid : String) (new_text : String) : Option String :=
  match get_latest_contract_text s pid with
  | none => none
  | some prev =>
    if prev = "" then none
    else
      let snippet := String.intercalate "\n"
        ((unified_diff (splitlines prev) (splitlines new_text)).take 20)
      if snippet = "" then none else some snippet

/-- `create_initial_context` (`src/agents/state.py`), restricted to the
modelled fields. -/
def create_initial_context (version_id session_id contract_text : String) :
    AnalysisContext :=
  { version_id := version_id, session_id := session_id,
    contract_text := contract_text, current_agent := "initializing",
    workflow_stage := "reviewing", errors := [] }

/-- `AdaptiveOrchestrator.ingest_contract`.  `hash` is SHA-256 (only its
determinism is ever used); clause/policy lists and style parameters flow
into the context snapshot, which the modelled context elides. -/
def ingest_contract (O : Orchestrator) (hash : String → String)
    (project_id session_id version_id contract_text : String)
    (notes graph_snapshot : Option String)
    (preferences : Option (List (String × String)))
    (nowS : String) (nowI : Int) : String × Orchestrator :=
  let checksum := hash contract_text
  let diff_summary := generate_diff O.memory project_id contract_text
  let mem1 := record_version O.memory project_id version_id "upload" checksum
    notes graph_snapshot diff_summary (some contract_text) nowS
  let mem2 :=
    match preferences with
    | none => mem1
    | some prefs => prefs.foldl
        (fun m kv => record_preference m project_id session_id kv.1 kv.2 none
          "session" nowS)
        mem1
  let context_id := project_id ++ ":" ++ version_id
  let context := create_initial_context version_id session_id contract_text
  let mem3 := store_context mem2 context_id context
  let tm1 := (enqueue O.tasks "clause_review"
    { task_id := none, context_id := context_id, project_id := project_id,
      version_id := version_id, session_id := session_id } 1 none nowI).2
  let mem4 := log_agent_event mem3 project_id version_id "orchestrator"
    "ingest_version"
    [("context_id", JVal.s context_id),
     ("diff_summary",
        match diff_summary with | some d => JVal.s d | none => JVal.nullv)]
    nowS
  (context_id, { memory := mem4, tasks := tm1, agents := O.agents })

/-! #### Project-file lemmas for the ingestion claims -/

theorem load_record_version (s : PMState) (pid vid src cks : String)
    (n g diff : Option String) (text : Option String) (now : String) :
    load_project (record_version s pid vid src cks n g diff text now) pid
      = { load_project s pid with
          versions := (load_project s pid).versions ++
            [{ version_id := vid, source := src, checksum := cks, created_at := now,
               notes := n, diff_summary := diff, graph_snapshot := g }]
          latest_contract_text :=
            match text with
            | some t => some t
            | none => (load_project s pid).latest_contract_text } := by
  simp only [record_version]
  exact load_save s pid _

theorem load_record_preference (s : PMState) (pid uid k v : String)
    (r : Option String) (src now : String) :
    (load_project (record_preference s pid uid k v r src now) pid).versions
        = (load_project s pid).versions
    ∧ (load_project (record_preference s pid uid k v r src now) pid).latest_contract_text
        = (load_project s pid).latest_contract_text := by
  constructor <;> · simp only [record_preference]; rw [load_save]

theorem load_log_agent_event (s : PMState) (pid vid an act : String)
    (pl : List (String × JVal)) (now : String) :
    load_project (log_agent_event s pid vid an act pl now) pid
      = { load_project s pid with
          agent_events := (load_project s pid).agent_events ++
            [{ timestamp := now, agent := an, action := act,
               version_id := vid, payload := pl }] } := by
  simp only [log_agent_event]
  exact load_save s pid _

theorem load_store_context (s : PMState) (cid : String) (ctx : AnalysisContext)
    (pid : String) : load_project (store_context s cid ctx) pid = load_project s pid :=
  rfl

theorem foldl_record_preference_load (pid sid now : String) :
    ∀ (prefs : List (String × String)) (m : PMState),
      (load_project (prefs.foldl
          (fun m kv => record_preference m pid sid kv.1 kv.2 none "session" now) m)
          pid).versions
        = (load_project m pid).versions
      ∧ (load_project (prefs.foldl
          (fun m kv => record_preference m pid sid kv.1 kv.2 none "session" now) m)
          pid).latest_contract_text
        = (load_project m pid).latest_contract_text := by
  intro prefs
  induction prefs with
  | nil => intro m; exact ⟨rfl, rfl⟩
  | cons kv rest ih =>
    intro m
    simp only [List.foldl]
    obtain ⟨h1, h2⟩ := ih (record_preference m pid sid kv.1 kv.2 none "session" now)
    obtain ⟨g1, g2⟩ := load_record_preference m pid sid kv.1 kv.2 none "session" now
    exact ⟨h1.trans g1, h2.trans g2⟩

/-- After one ingestion the project file carries one more version record and
the ingested text as its latest contract text. -/
theorem load_after_ingest (O : Orchestrator) (hash : String → String)
    (pid sid vid text : String) (n g : Option String)
    (pr : Option (List (String × String))) (tS : String) (tI : Int) :
    (load_project ((ingest_contract O hash pid sid vid text n g pr tS tI).2).memory
        pid).versions
      = (load_project O.memory pid).versions ++
        [{ version_id := vid, source := "upload", checksum := hash text,
           created_at := tS, notes := n,
           diff_summary := generate_diff O.memory pid text, graph_snapshot := g }]
    ∧ (load_project ((ingest_contract O hash pid sid vid text n g pr tS tI).2).memory
        pid).latest_contract_text = some text := by
  simp only [ingest_contract]
  have h4 := load_log_agent_event
  have hrec := load_record_version O.memory pid vid "upload" (hash text) n g
    (generate_diff O.memory pid text) (some text) tS
  cases pr with
  | none =>
    constructor
    · rw [show (load_project (log_agent_event _ _ _ _ _ _ _) pid).versions
          = _ from by rw [load_log_agent_event]]
      rw [load_store_context, hrec]
    · rw [show (load_project (log_agent_event _ _ _ _ _ _ _) pid).latest_contract_text
          = _ from by rw [load_log_agent_event]]
      rw [load_store_context, hrec]
  | some prefs =>
    obtain ⟨f1, f2⟩ := foldl_record_preference_load pid sid tS prefs
      (record_version O.memory pid vid "upload" (hash text) n g
        (generate_diff O.memory pid text) (some text) tS)
    constructor
    · rw [show (load_project (log_agent_event _ _ _ _ _ _ _) pid).versions
          = _ from by rw [load_log_agent_event]]
      rw [load_store_context, f1, hrec]
    · rw [show (load_project (log_agent_event _ _ _ _ _ _ _) pid).latest_contract_text
          = _ from by rw [load_log_agent_event]]
      rw [load_store_context, f2, hrec]

/-- Diffing a text against itself yields nothing: the previous text is either
falsy (empty) or equal, and `unified_diff` of equal line sequences is empty,
so `snippet or None` collapses to `None`. -/
theorem generate_diff_self (s : PMState) (pid text : String)
    (h : get_latest_contract_text s pid = some text) :
    generate_diff s pid text = none := by
  unfold generate_diff
  rw [h]
  dsimp only
  by_cases he : text = ""
  · rw [if_pos he]
  · rw [if_neg he]
    simp only [unified_diff, if_pos rfl, List.take_nil]
    rfl

/-! #### C9 -/

/-- C9: ingesting the same contract text twice for the same project appends
two version records with identical checksums and the caller's two distinct
version ids; the second record's diff summary is `None` (no textual
difference), and the previously recorded version list is preserved as a
prefix, never mutated or deleted. -/
theorem c9_same_text_twice :
    ∀ (O : Orchestrator) (hash : String → String)
      (pid sid1 sid2 v1 v2 text : String) (n1 n2 g1 g2 : Option String)
      (pr1 pr2 : Option (List (String × String))) (t1 t2 : String) (i1 i2 : Int),
      v1 ≠ v2 →
      ∃ r1 r2 : VersionRecord,
        get_version_history
            ((ingest_contract
              ((ingest_contract O hash pid sid1 v1 text n1 g1 pr1 t1 i1).2)
              hash pid sid2 v2 text n2 g2 pr2 t2 i2).2).memory pid
          = get_version_history O.memory pid ++ [r1, r2]
        ∧ r1.version_id = v1 ∧ r2.version_id = v2 ∧ r1.version_id ≠ r2.version_id
        ∧ r1.checksum = hash text ∧ r2.checksum = hash text
        ∧ r2.diff_summary = none := by
  intro O hash pid sid1 sid2 v1 v2 text n1 n2 g1 g2 pr1 pr2 t1 t2 i1 i2 hne
  obtain ⟨hv1, hl1⟩ := load_after_ingest O hash pid sid1 v1 text n1 g1 pr1 t1 i1
  obtain ⟨hv2, hl2⟩ := load_after_ingest
    ((ingest_contract O hash pid sid1 v1 text n1 g1 pr1 t1 i1).2)
    hash pid sid2 v2 text n2 g2 pr2 t2 i2
  have hdiff2 : generate_diff
      ((ingest_contract O hash pid sid1 v1 text n1 g1 pr1 t1 i1).2).memory pid text
      = none :=
    generate_diff_self _ pid text hl1
  refine ⟨{ version_id := v1, source := "upload", checksum := hash text,
            created_at := t1, notes := n1,
            diff_summary := generate_diff O.memory pid text, graph_snapshot := g1 },
          { version_id := v2, source := "upload", checksum := hash text,
            created_at := t2, notes := n2, diff_summary := none,
            graph_snapshot := g2 }, ?_, rfl, rfl, hne, rfl, rfl, rfl⟩
  unfold get_version_history
  rw [hv2, hdiff2, hv1, List.append_assoc]
  rfl

/-- Witness for C9: two ingestions of the text `"T"` into a fresh
orchestrator under distinct version ids. -/
theorem c9_same_text_twice_witness :
    ∃ r1 r2 : VersionRecord,
      get_version_history
          ((ingest_contract
            ((ingest_contract {} (fun s => s) "p" "s1" "v1" "T" none none none "t1" 0).2)
            (fun s => s) "p" "s2" "v2" "T" none none none "t2" 1).2).memory "p"
        = get_version_history ({} : Orchestrator).memory "p" ++ [r1, r2]
      ∧ r1.version_id = "v1" ∧ r2.version_id = "v2" ∧ r1.version_id ≠ r2.version_id
      ∧ r1.checksum = (fun s : String => s) "T" ∧ r2.checksum = (fun s : String => s) "T"
      ∧ r2.diff_summary = none :=
  c9_same_text_twice {} (fun s => s) "p" "s1" "s2" "v1" "v2" "T" none none none none
    none none "t1" "t2" 0 1 (by decide)

/-! #### C10 -/

/-- C10: when a project's persisted file exists but cannot be parsed, every
read returns the fresh empty record, and the next mutating operation
rewrites the file as a parsable record containing only the new entry,
discarding everything previously persisted. -/
theorem c10_corrupt_file_resets :
    ∀ (s : PMState) (pid uid : String),
      alGet pid s.files = some PMFile.corrupt →
      get_version_history s pid = []
      ∧ get_preferences s pid uid = []
      ∧ get_agent_events s pid = []
      ∧ (∀ (vid src cks : String) (n g diff : Option String)
            (text : Option String) (now : String),
          alGet pid (record_version s pid vid src cks n g diff text now).files
            = some (PMFile.good
                { versions := [{ version_id := vid, source := src, checksum := cks,
                                 created_at := now, notes := n, diff_summary := diff,
                                 graph_snapshot := g }]
                  preferences := []
                  agent_events := []
                  latest_contract_text :=
                    match text with | some t => some t | none => none }))
      ∧ (∀ (k v : String) (r : Option String) (src now : String),
          alGet pid (record_preference s pid uid k v r src now).files
            = some (PMFile.good
                { versions := []
                  preferences := [(uid, [(k, { key := k, value := v, rationale := r,
                                               updated_at := now, source := src })])]
                  agent_events := []
                  latest_contract_text := none }))
      ∧ (∀ (vid an act : String) (pl : List (String × JVal)) (now : String),
          alGet pid (log_agent_event s pid vid an act pl now).files
            = some (PMFile.good
                { versions := []
                  preferences := []
                  agent_events := [{ timestamp := now, agent := an, action := act,
                                     version_id := vid, payload := pl }]
                  latest_contract_text := none })) := by
  intro s pid uid hcor
  have hload : load_project s pid = {} := by
    unfold load_project
    rw [hcor]
  refine ⟨?_, ?_, ?_, ?_, ?_, ?_⟩
  · unfold get_version_history
    rw [hload]
  · unfold get_preferences
    rw [hload]
    rfl
  · unfold get_agent_events
    rw [hload]
  · intro vid src cks n g diff text now
    simp only [record_version, save_project, hload]
    rw [alGet_insert_self]
    rfl
  · intro k v r src now
    simp only [record_preference, save_project, hload]
    rw [alGet_insert_self]
    rfl
  · intro vid an act pl now
    simp only [log_agent_event, save_project, hload]
    rw [alGet_insert_self]
    rfl

/-! #### Control-loop lemmas for C5 and C6 -/

/-- A task returned by `dequeue` has been moved into the in-progress
registry under its own id. -/
theorem dequeueFuel_in_progress :
    ∀ (fuel : Nat) (s : TMState) (t : Task),
      (dequeueFuel fuel s).1 = some t →
      alGet t.task_id ((dequeueFuel fuel s).2).in_progress = some t := by
  intro fuel
  induction fuel with
  | zero =>
    intro s t h
    simp [dequeueFuel] at h
  | succ fuel ih =>
    intro s t h
    simp only [dequeueFuel] at h ⊢
    by_cases hq : s.queue.length > 0
    · rw [if_pos hq] at h ⊢
      by_cases hb : depBlocked (heappop taskLt s.queue).1 s.completed = true
      · rw [if_pos hb] at h ⊢
        exact ih _ t h
      · rw [if_neg hb] at h ⊢
        have ht : (heappop taskLt s.queue).1 = t := Option.some.inj h
        rw [ht]
        exact alGet_insert_self _ _ _
    · rw [if_neg hq] at h
      simp at h

theorem mark_complete_queue (s : TMState) (id : String)
    (r : Option (List (String × String))) (now : String) :
    (mark_complete s id r now).queue = s.queue := by
  unfold mark_complete
  cases alGet id s.in_progress <;> rfl

theorem transitions_cases (tt : String) :
    transitions tt = [] ∨ ∃ nt, transitions tt = [nt] := by
  unfold transitions
  by_cases h1 : tt = "clause_review"
  · rw [if_pos h1]; exact Or.inr ⟨_, rfl⟩
  · rw [if_neg h1]
    by_cases h2 : tt = "neutral_rationale"
    · rw [if_pos h2]; exact Or.inr ⟨_, rfl⟩
    · rw [if_neg h2]
      by_cases h3 : tt = "style_pass"
      · rw [if_pos h3]; exact Or.inr ⟨_, rfl⟩
      · rw [if_neg h3]; exact Or.inl rfl

/-! #### C5 -/

/-- C5 (amended): a worker exception never propagates out of `run`: the
iteration completes (`processed`, so the loop moves on to the next task), an
Agent Event with action `"error"` carrying the exception text is appended,
the task is marked complete with a result carrying the error, no successor
task is enqueued, and the stored context — its error list included — is left
exactly as it was: the orchestrator records no context-level error entry. -/
theorem c5_worker_exception_isolated :
    ∀ (O : Orchestrator) (fuel : Nat) (clk : IterClock) (task : Task)
      (agent : AgentAdapter) (ctx : AnalysisContext) (msg : String),
      (dequeueFuel fuel O.tasks).1 = some task →
      select_agent O.agents task.task_type = some agent →
      get_context O.memory task.payload.context_id = some ctx →
      agent.handle ctx = Except.error msg →
      (runIteration O fuel clk).1 = IterResult.processed
      ∧ (runIteration O fuel clk).2.memory.live_contexts = O.memory.live_contexts
      ∧ get_context (runIteration O fuel clk).2.memory task.payload.context_id = some ctx
      ∧ get_agent_events (runIteration O fuel clk).2.memory task.payload.project_id
          = get_agent_events O.memory task.payload.project_id
            ++ [{ timestamp := clk.event_time, agent := agent.name, action := "error",
                  version_id := task.payload.version_id,
                  payload := [("task_type", JVal.s task.task_type),
                              ("error", JVal.s msg)] }]
      ∧ alGet task.task_id (runIteration O fuel clk).2.tasks.completed
          = some { task_type := task.task_type, payload := task.payload,
                   completed_at := clk.complete_time, result := [("error", msg)] }
      ∧ (runIteration O fuel clk).2.tasks.queue = (dequeueFuel fuel O.tasks).2.queue := by
  intro O fuel clk task agent ctx msg hdq hsel hctx hexc
  have hrun : runIteration O fuel clk
      = (IterResult.processed,
         { memory := log_agent_event O.memory task.payload.project_id
             task.payload.version_id agent.name "error"
             [("task_type", JVal.s task.task_type), ("error", JVal.s msg)]
             clk.event_time,
           tasks := mark_complete (dequeueFuel fuel O.tasks).2 task.task_id
             (some [("error", msg)]) clk.complete_time,
           agents := O.agents }) := by
    simp only [runIteration, hdq, hsel, hctx, hexc]
  rw [hrun]
  refine ⟨rfl, rfl, hctx, ?_, ?_, mark_complete_queue _ _ _ _⟩
  · show (load_project (log_agent_event _ _ _ _ _ _ _) task.payload.project_id).agent_events = _
    rw [load_log_agent_event]
    rfl
  · have hip := dequeueFuel_in_progress fuel O.tasks task hdq
    show alGet task.task_id (mark_complete _ _ _ _).completed = _
    unfold mark_complete
    rw [hip]
    exact alGet_insert_self _ _ _

def c5pl : Payload :=
  { task_id := some "T1", context_id := "p:v", project_id := "p",
    version_id := "v", session_id := "s" }

def c5ctx : AnalysisContext := { version_id := "v", session_id := "s" }

def c5agent : AgentAdapter :=
  { name := "DiligentReviewer", supported := ["clause_review"],
    handle := fun _ => Except.error "boom" }

def c5task : Task :=
  { priority := 3, created_at := 0, task_id := "T1", task_type := "clause_review",
    payload := c5pl, depends_on := none }

def c5orch : Orchestrator :=
  { memory := store_context {} "p:v" c5ctx,
    tasks := (enqueue tmInit "clause_review" c5pl 3 none 0).2,
    agents := [c5agent] }

def c5clk : IterClock := { event_time := "te", complete_time := "tc", enqueue_time := 7 }

/-- C5 counterexample to the claim as stated: after the worker raises, the
stored context is unchanged and its error list is still empty — no
context-level error entry was recorded, contrary to the claim. -/
theorem c5_counterexample_no_context_error_entry :
    get_context ((runIteration c5orch 1 c5clk).2).memory "p:v" = some c5ctx
    ∧ c5ctx.errors = []
    ∧ (runIteration c5orch 1 c5clk).1 = IterResult.processed
    ∧ get_agent_events ((runIteration c5orch 1 c5clk).2).memory "p"
        = [{ timestamp := "te", agent := "DiligentReviewer", action := "error",
             version_id := "v",
             payload := [("task_type", JVal.s "clause_review"),
                         ("error", JVal.s "boom")] }] := by
  refine ⟨by decide, by decide, by decide, by decide⟩

/-- Witness for C5 (amended): the concrete failing worker leaves the stored
context untouched and the loop proceeds. -/
theorem c5_worker_exception_isolated_witness :
    (runIteration c5orch 1 c5clk).1 = IterResult.processed
    ∧ get_context (runIteration c5orch 1 c5clk).2.memory "p:v" = some c5ctx
    ∧ (runIteration c5orch 1 c5clk).2.tasks.queue
        = (dequeueFuel 1 c5orch.tasks).2.queue :=
  have h := c5_worker_exception_isolated c5orch 1 c5clk c5task c5agent c5ctx "boom"
    (by decide) rfl (by decide) rfl
  ⟨h.1, h.2.2.1, h.2.2.2.2.2⟩

/-! #### C6 -/

/-- C6: on worker success the updated context is persisted under the same
context id, and exactly the successors of the fixed linear table
`clause_review → neutral_rationale → style_pass → editor_pass` are enqueued,
each with priority `task.priority + 1` and `depends_on = task.task_id`
(so a completed `editor_pass` enqueues nothing). -/
theorem c6_success_persists_then_enqueues_successors :
    ∀ (O : Orchestrator) (fuel : Nat) (clk : IterClock) (task : Task)
      (agent : AgentAdapter) (ctx ctx2 : AnalysisContext),
      (dequeueFuel fuel O.tasks).1 = some task →
      select_agent O.agents task.task_type = some agent →
      get_context O.memory task.payload.context_id = some ctx →
      agent.handle ctx = Except.ok ctx2 →
      get_context (runIteration O fuel clk).2.memory task.payload.context_id = some ctx2
      ∧ transitions "clause_review" = ["neutral_rationale"]
      ∧ transitions "neutral_rationale" = ["style_pass"]
      ∧ transitions "style_pass" = ["editor_pass"]
      ∧ transitions "editor_pass" = []
      ∧ (↑(runIteration O fuel clk).2.tasks.queue : Multiset Task)
          = ↑(dequeueFuel fuel O.tasks).2.queue
            + ↑((transitions task.task_type).map fun nt =>
                successorTask task (dequeueFuel fuel O.tasks).2.counter nt
                  clk.enqueue_time) := by
  intro O fuel clk task agent ctx ctx2 hdq hsel hctx hok
  have hrun : runIteration O fuel clk
      = (IterResult.processed,
         { memory := log_agent_event
             (store_context O.memory task.payload.context_id ctx2)
             task.payload.project_id task.payload.version_id agent.name "completed"
             [("task_type", JVal.s task.task_type),
              ("notes",
                match (post_process agent.name task).notes with
                | some n => JVal.s n
                | none => JVal.nullv)]
             clk.event_time,
           tasks := mark_complete
             ((post_process agent.name task).new_tasks.foldl
               (fun tm spec =>
                 (enqueue tm spec.task_type (successorPayload task) spec.priority
                   spec.depends_on clk.enqueue_time).2)
               (dequeueFuel fuel O.tasks).2)
             task.task_id (some [("status", (post_process agent.name task).status)])
             clk.complete_time,
           agents := O.agents }) := by
    simp only [runIteration, hdq, hsel, hctx, hok]
  rw [hrun]
  refine ⟨?_, rfl, rfl, rfl, rfl, ?_⟩
  · show alGet task.payload.context_id
      (alInsert task.payload.context_id ctx2 O.memory.live_contexts) = some ctx2
    exact alGet_insert_self _ _ _
  · rw [mark_complete_queue]
    simp only [post_process]
    rcases transitions_cases task.task_type with h | ⟨nt, h⟩
    · rw [h]
      simp
    · rw [h]
      simp only [List.map_cons, List.map_nil, List.foldl_cons, List.foldl_nil]
      simp only [enqueue, successorPayload]
      rw [heappush_perm]
      rw [show ((↑[successorTask task (dequeueFuel fuel O.tasks).2.counter nt
              clk.enqueue_time]) : Multiset Task)
          = successorTask task (dequeueFuel fuel O.tasks).2.counter nt
              clk.enqueue_time ::ₘ (0 : Multiset Task) from rfl]
      rw [Multiset.add_cons, add_zero]
      rfl

def c6agent : AgentAdapter :=
  { name := "DiligentReviewer", supported := ["clause_review"],
    handle := fun c => Except.ok { c with workflow_stage := "rationalizing" } }

def c6ctx : AnalysisContext := { version_id := "v", session_id := "s" }

def c6ctx2 : AnalysisContext := { c6ctx with workflow_stage := "rationalizing" }

def c6task : Task :=
  { priority := 3, created_at := 0, task_id := "T1", task_type := "clause_review",
    payload := c5pl, depends_on := none }

def c6orch : Orchestrator :=
  { memory := store_context {} "p:v" c6ctx,
    tasks := (enqueue tmInit "clause_review" c5pl 3 none 0).2,
    agents := [c6agent] }

/-- Witness for C6: a concrete successful `clause_review` pass persists the
updated context and the transition table's terminal row is empty. -/
theorem c6_success_persists_then_enqueues_successors_witness :
    get_context (runIteration c6orch 1 c5clk).2.memory "p:v" = some c6ctx2
    ∧ transitions "editor_pass" = []
    ∧ (↑(runIteration c6orch 1 c5clk).2.tasks.queue : Multiset Task)
        = ↑(dequeueFuel 1 c6orch.tasks).2.queue
          + ↑((transitions "clause_review").map fun nt =>
              successorTask c6task (dequeueFuel 1 c6orch.tasks).2.counter nt
                c5clk.enqueue_time) :=
  have h := c6_success_persists_then_enqueues_successors c6orch 1 c5clk c6task
    c6agent c6ctx c6ctx2 (by decide) rfl (by decide) rfl
  ⟨h.1, h.2.2.2.2.1, h.2.2.2.2.2⟩

/-- A store whose only project file exists but is unparsable. -/
def c10store : PMState := { files := [("proj", PMFile.corrupt)], live_contexts := [] }

/-- Witness for C10: the corrupt file reads as empty and a `record_version`
rewrites it with only the new entry. -/
theorem c10_corrupt_file_resets_witness :
    get_version_history c10store "proj" = []
    ∧ get_preferences c10store "proj" "user" = []
    ∧ get_agent_events c10store "proj" = []
    ∧ alGet "proj" (record_version c10store "proj" "v1" "upload" "ck" none none none
          (some "text") "t0").files
        = some (PMFile.good
            { versions := [{ version_id := "v1", source := "upload", checksum := "ck",
                             created_at := "t0", notes := none, diff_summary := none,
                             graph_snapshot := none }]
              preferences := []
              agent_events := []
              latest_contract_text := some "text" }) :=
  have h := c10_corrupt_file_resets c10store "proj" "user" (by decide)
  ⟨h.1, h.2.1, h.2.2.1, h.2.2.2.1 "v1" "upload" "ck" none none none (some "text") "t0"⟩

end LegalAssistant
